import Mathlib

/-!
Verification of the music-rnn MIDI preprocessing pipeline.

This file gives a shallow embedding of the two algorithmic cores of the
repository and proves properties about them:

* the event tokenizer of `compile_midi_token_dataset.py`
  (`quantize_time`, the `token2event` / `event2token` vocabulary and
  `midi_to_token_sequence`), and
* the instrument-role classifier `analyze_midi`, which appears twice in the
  repository: in `simplify_midis.py` (with 1-, 2- and 3-track branches and
  chord weights 0.5/0.4/0.1) and in `inspect_dataset.py` (3-track logic only,
  chord weights 0.45/0.45/0.1).

Modelling conventions:

* Python floats are modelled as rationals (`ℚ`); `round` is modelled as
  round-half-to-even (`pyRound`), Python's rounding rule.
* Python's `sorted`/`list.sort` is a stable sort; it is embedded as the stable
  insertion sort `stableSort`, which is extensionally equal to any stable sort
  (an element is placed before another exactly when its key strictly
  precedes the other's key).
* `pretty_midi` instrument objects are compared by identity in the source;
  identity is modelled by the position of the instrument in the input list
  (`List.enum`).
* Python `dict`s keyed by roles are modelled as association lists in
  insertion order; Python exceptions (the `ValueError` raised by `max()` on
  an empty sequence, i.e. the spec's `NoEligibleTracks`) are modelled by
  `Option.none`.
-/

/-! ## Data model -/

/-- A note of an instrument track: pitch, onset time and end time (seconds,
modelled as rationals). -/
structure NoteEvent where
  pitch : ℕ
  start : ℚ
  end_ : ℚ
deriving DecidableEq, Repr

/-- An instrument track as delivered by the MIDI parse collaborator. -/
structure Instrument where
  program : ℕ
  is_drum : Bool
  notes : List NoteEvent
deriving DecidableEq, Repr

/-! ## Vocabulary (`compile_midi_token_dataset.py`, step 1) -/

/-- `TIME_STEP = 0.03` seconds. -/
def TIME_STEP : ℚ := 0.03

/-- `MAX_PITCH = 127`. -/
def MAX_PITCH : ℕ := 127

/-- `MAX_SHIFT = 100`. -/
def MAX_SHIFT : ℕ := 100

/-- Symbolic event names: the f-strings `NOTE_ON_{pitch}` and
`TIME_SHIFT_{shift}` of the source, embedded structurally. -/
inductive MidiEvent where
  | NOTE_ON (pitch : ℕ)
  | TIME_SHIFT (shift : ℕ)
deriving DecidableEq, Repr

/-- The id/event pairs inserted into `token2event` and `event2token` by the
two vocabulary-building loops: `NOTE_ON` tokens get ids `0..127` (id = pitch),
`TIME_SHIFT` tokens get ids `base + shift - 1` for `shift` in `1..MAX_SHIFT`
with `base = MAX_PITCH + 1`. -/
def vocabEntries : List (ℕ × MidiEvent) :=
  (List.range (MAX_PITCH + 1)).map (fun pitch => (pitch, MidiEvent.NOTE_ON pitch))
    ++ (List.range' 1 MAX_SHIFT).map
        (fun shift => (MAX_PITCH + 1 + shift - 1, MidiEvent.TIME_SHIFT shift))

/-- The `token2event` dictionary: token id to event name. -/
def token2event (idx : ℕ) : Option MidiEvent :=
  List.lookup idx vocabEntries

/-- The `event2token` dictionary: event name to token id. -/
def event2token (ev : MidiEvent) : Option ℕ :=
  List.lookup ev (vocabEntries.map (fun p => (p.2, p.1)))

/-- `VOCAB_SIZE = MAX_PITCH + 1 + MAX_SHIFT`. -/
def VOCAB_SIZE : ℕ := MAX_PITCH + 1 + MAX_SHIFT

/-- Total accessor for `event2token`, used where the source indexes the
dictionary directly (`event2token[f"..."]`); on the valid key range it always
hits an entry. -/
def tokId (ev : MidiEvent) : ℕ :=
  (event2token ev).getD 0

/-! ## Tokenizer (`compile_midi_token_dataset.py`, step 2) -/

/-- Python 3 `round` on a rational: round half to even. -/
def pyRound (q : ℚ) : ℤ :=
  let f : ℤ := ⌊q⌋
  if q < (f : ℚ) + 1 / 2 then f
  else if (f : ℚ) + 1 / 2 < q then f + 1
  else if f % 2 = 0 then f else f + 1

/-- `quantize_time(t)`: round a time `t` (in seconds) to the nearest
`TIME_STEP` grid index. -/
def quantize_time (t : ℚ) : ℤ :=
  pyRound (t / TIME_STEP)

/-- Step 1 of `midi_to_token_sequence`: gather all note-on events of every
instrument as `(start_bin, pitch)` pairs. -/
def note_events_of (pm : List Instrument) : List (ℤ × ℕ) :=
  pm.flatMap (fun inst => inst.notes.map (fun note => (quantize_time note.start, note.pitch)))

/-- A stable insertion: `a` goes in front of the first element `b` that does
not strictly precede it (`lt b a = false`), so that elements inserted later
end up after equal-keyed elements inserted earlier. -/
def stableInsert (lt : α → α → Bool) (a : α) : List α → List α
  | [] => [a]
  | b :: t => if lt b a then b :: stableInsert lt a t else a :: b :: t

/-- Stable sort; `lt x y` means `x` must come strictly before `y`. This is
the unique stable sort, hence the embedding of Python's `sorted`. -/
def stableSort (lt : α → α → Bool) : List α → List α
  | [] => []
  | a :: l => stableInsert lt a (stableSort lt l)

/-- Sort key of the tokenizer: `(time_bin, pitch)` ascending, lexicographic. -/
def ltEvent (x y : ℤ × ℕ) : Bool :=
  decide (x.1 < y.1 ∨ (x.1 = y.1 ∧ x.2 < y.2))

/-- The inner `while delta > 0` loop of `midi_to_token_sequence`: repeatedly
emit a `TIME_SHIFT` token of `min delta MAX_SHIFT` bins. -/
def emitShifts (delta : ℤ) : List ℕ :=
  if _h : 0 < delta then
    tokId (MidiEvent.TIME_SHIFT (min delta (MAX_SHIFT : ℤ)).toNat)
      :: emitShifts (delta - min delta (MAX_SHIFT : ℤ))
  else []
termination_by delta.toNat
decreasing_by
  simp only [MAX_SHIFT]
  omega

/-- The main `while i < len(note_events)` loop of `midi_to_token_sequence`:
emit the `TIME_SHIFT` tokens for the gap to the next occupied bin, then all
`NOTE_ON` tokens of that bin, then continue with the rest. -/
def tokenLoop (prev_bin : ℤ) : List (ℤ × ℕ) → List ℕ
  | [] => []
  | (curr_bin, p) :: rest =>
      emitShifts (curr_bin - prev_bin)
        ++ (tokId (MidiEvent.NOTE_ON p)
              :: (rest.takeWhile (fun e => e.1 = curr_bin)).map
                  (fun e => tokId (MidiEvent.NOTE_ON e.2)))
        ++ tokenLoop curr_bin (rest.dropWhile (fun e => e.1 = curr_bin))
termination_by l => l.length
decreasing_by
  exact Nat.lt_succ_of_le (List.Sublist.length_le (List.dropWhile_sublist _))

/-- `midi_to_token_sequence` on an already-parsed MIDI structure: flatten,
sort by `(time_bin, pitch)`, emit the first bin's `NOTE_ON` tokens without a
leading `TIME_SHIFT`, then walk the remaining events. -/
def midi_to_token_sequence (pm : List Instrument) : List ℕ :=
  let note_events := note_events_of pm
  if note_events.isEmpty then [] else
  match stableSort ltEvent note_events with
  | [] => []
  | (b0, p0) :: tl =>
      ((((b0, p0) :: tl).takeWhile (fun e => e.1 = b0)).map
          (fun e => tokId (MidiEvent.NOTE_ON e.2)))
        ++ tokenLoop b0 (((b0, p0) :: tl).dropWhile (fun e => e.1 = b0))

/-! ## Role classifier: shared statistics pass

`analyze_midi` appears in both `simplify_midis.py` and `inspect_dataset.py`
with a literally identical first pass (raw statistics) and normalization;
those shared parts are embedded once. -/

/-- The three role names. -/
inductive Role where
  | bass
  | melody
  | chords
deriving DecidableEq, Repr

/-- `[inst for inst in pm.instruments if not inst.is_drum]`, with each
surviving instrument tagged by its position in `pm.instruments` (object
identity). -/
def nonDrum (pm : List Instrument) : List (ℕ × Instrument) :=
  pm.enum.filter (fun p => !p.2.is_drum)

/-- State of the single pass over one instrument's notes. -/
structure NoteAcc where
  total_pitch : ℕ
  concurrent_notes : ℕ
  prev_end : ℚ
  total_length : ℚ

/-- Raw per-instrument statistics gathered by the first pass. -/
structure RawStats where
  idx : ℕ
  program : ℕ
  num_notes : ℕ
  avg_pitch : ℚ
  concurrency : ℕ
  avg_length : ℚ
deriving DecidableEq, Repr

/-- The note loop of the first pass: accumulate total pitch, count a note as
concurrent when its start is before the previous note's end, track the
previous end, and accumulate total length. -/
def noteAccOf (notes : List NoteEvent) : NoteAcc :=
  notes.foldl
    (fun acc note =>
      { total_pitch := acc.total_pitch + note.pitch
        concurrent_notes :=
          if note.start < acc.prev_end then acc.concurrent_notes + 1 else acc.concurrent_notes
        prev_end := note.end_
        total_length := acc.total_length + (note.end_ - note.start) })
    ⟨0, 0, 0, 0⟩

/-- The first pass of `analyze_midi`: skip instruments with no notes, and
record index, program, note count, average pitch, concurrency and average
note length for the rest. -/
def statsOf (instruments : List (ℕ × Instrument)) : List RawStats :=
  instruments.filterMap (fun p =>
    if p.2.notes.length = 0 then none
    else
      some
        { idx := p.1
          program := p.2.program
          num_notes := p.2.notes.length
          avg_pitch := ((noteAccOf p.2.notes).total_pitch : ℚ) / (p.2.notes.length : ℚ)
          concurrency := (noteAccOf p.2.notes).concurrent_notes
          avg_length := (noteAccOf p.2.notes).total_length / (p.2.notes.length : ℚ) })

/-- `max_num_notes = max(s["num_notes"] for s in stats)`. -/
def maxNumNotesOf : List RawStats → ℕ
  | [] => 0
  | s :: t => t.foldl (fun m x => max m x.num_notes) s.num_notes

/-- `max_concurrency = max(s["concurrency"] for s in stats) or 1`. -/
def maxConcurrencyOf : List RawStats → ℕ
  | [] => 1
  | s :: t =>
      let m := t.foldl (fun m x => max m x.concurrency) s.concurrency
      if m = 0 then 1 else m

/-- `max_avg_length = max(s["avg_length"] for s in stats) or 1.0`. -/
def maxAvgLengthOf : List RawStats → ℚ
  | [] => 1
  | s :: t =>
      let m := t.foldl (fun m x => max m x.avg_length) s.avg_length
      if m = 0 then 1 else m

/-- A scored track: the entries of the `results` list. -/
structure ScoredTrack where
  idx : ℕ
  bass_score : ℚ
  chord_score : ℚ
  melody_score : ℚ
  avg_pitch : ℚ
  concurrency : ℕ
  avg_length : ℚ
  num_notes : ℕ
deriving DecidableEq, Repr

/-- Sort key for the flattened `(instrument, role, score)` table of the
2-track branch: descending score, stable. -/
def ltByScore (x y : ℕ × Role × ℚ) : Bool :=
  decide (y.2.2 < x.2.2)

/-- Descending stable sort key by `bass_score`. -/
def ltByBass (x y : ScoredTrack) : Bool :=
  decide (y.bass_score < x.bass_score)

/-- Descending stable sort key by `melody_score`. -/
def ltByMelody (x y : ScoredTrack) : Bool :=
  decide (y.melody_score < x.melody_score)

/-- Descending stable sort key by `chord_score`. -/
def ltByChord (x y : ScoredTrack) : Bool :=
  decide (y.chord_score < x.chord_score)

/-- The greedy loop of the 2-track branch: walk the sorted
`(instrument, role, score)` table, assign any pair whose instrument and role
are both unclaimed, and stop as soon as two assignments are made. -/
def greedyAssign : List (ℕ × Role × ℚ) → List ℕ → List Role → List (Role × ℕ) → List (Role × ℕ)
  | [], _, _, assigned => assigned
  | (i, r, _) :: rest, used_insts, used_roles, assigned =>
      if i ∉ used_insts ∧ r ∉ used_roles then
        if (assigned ++ [(r, i)]).length = 2 then assigned ++ [(r, i)]
        else greedyAssign rest (i :: used_insts) (r :: used_roles) (assigned ++ [(r, i)])
      else greedyAssign rest used_insts used_roles assigned

/-- The fixed-order selection used for three or more scored tracks (and
unconditionally in `inspect_dataset.py`): highest bass score first, then the
highest melody score among the remaining tracks, then the highest chord score
among what is left. `none` models the `IndexError` Python would raise if a
selection list were empty. -/
def select3 (results : List ScoredTrack) : Option (List (Role × ℕ)) :=
  match stableSort ltByBass results with
  | [] => none
  | b :: _ =>
      let remaining := results.filter (fun r => r.idx ≠ b.idx)
      match stableSort ltByMelody remaining with
      | [] => none
      | m :: _ =>
          let remaining2 := remaining.filter (fun r => r.idx ≠ m.idx)
          match stableSort ltByChord remaining2 with
          | [] => none
          | c :: _ => some [(Role.bass, b.idx), (Role.melody, m.idx), (Role.chords, c.idx)]

namespace SimplifyMidis

/-- The scoring step of `analyze_midi` in `simplify_midis.py`: bass score
`0.5·is_bass_prog + 0.5·(127 − avgPitch)/127`, chord score
`0.5·normConcurrency + 0.4·normAvgLength + 0.1·normNoteCount`, melody score
`0.45·(avgPitch/127) + 0.45·(maxConc − conc)/maxConc + 0.1·normNoteCount`. -/
def scoreTrack (maxN maxC : ℕ) (maxL : ℚ) (s : RawStats) : ScoredTrack :=
  let norm_note_count : ℚ := (s.num_notes : ℚ) / (maxN : ℚ)
  let norm_concurrency : ℚ := (s.concurrency : ℚ) / (maxC : ℚ)
  let norm_avg_length : ℚ := s.avg_length / maxL
  let is_bass_prog : ℚ := if 33 ≤ s.program ∧ s.program ≤ 40 then 1 else 0
  { idx := s.idx
    bass_score := 0.5 * is_bass_prog + 0.5 * ((127 - s.avg_pitch) / 127)
    chord_score := 0.5 * norm_concurrency + 0.4 * norm_avg_length + 0.1 * norm_note_count
    melody_score :=
      0.45 * (s.avg_pitch / 127)
        + 0.45 * (((maxC : ℚ) - (s.concurrency : ℚ)) / (maxC : ℚ))
        + 0.1 * norm_note_count
    avg_pitch := s.avg_pitch
    concurrency := s.concurrency
    avg_length := s.avg_length
    num_notes := s.num_notes }

/-- Normalization constants plus scoring pass of `simplify_midis.py`. -/
def resultsOf (stats : List RawStats) : List ScoredTrack :=
  stats.map (scoreTrack (maxNumNotesOf stats) (maxConcurrencyOf stats) (maxAvgLengthOf stats))

/-- The flattened `(instrument, role, score)` table of the 2-track branch. -/
def flattenTwo (results : List ScoredTrack) : List (ℕ × Role × ℚ) :=
  results.flatMap (fun r =>
    [(r.idx, Role.bass, r.bass_score), (r.idx, Role.melody, r.melody_score),
      (r.idx, Role.chords, r.chord_score)])

/-- Steps 5 of `analyze_midi` in `simplify_midis.py`: arity-dependent role
selection over the scored tracks. -/
def analyzeScored (results : List ScoredTrack) : Option (List (Role × ℕ)) :=
  match results with
  | [] => none
  | [r] => some [(Role.melody, r.idx)]
  | [r1, r2] => some (greedyAssign (stableSort ltByScore (flattenTwo [r1, r2])) [] [] [])
  | _ => select3 results

/-- `analyze_midi` of `simplify_midis.py` on a parsed MIDI structure.
`none` models the exception Python raises when `max()` is applied to an empty
`stats` list (no eligible track, the spec's `NoEligibleTracks`). -/
def analyze_midi (pm : List Instrument) : Option (List (Role × ℕ)) :=
  match nonDrum pm with
  | [(i, _)] => some [(Role.melody, i)]
  | instruments =>
      match statsOf instruments with
      | [] => none
      | s0 :: srest => analyzeScored (resultsOf (s0 :: srest))

end SimplifyMidis

namespace InspectDataset

/-- The scoring step of `analyze_midi` in `inspect_dataset.py`; identical to
the `simplify_midis.py` version except that the chord score is
`0.45·normConcurrency + 0.45·normAvgLength + 0.1·normNoteCount`. -/
def scoreTrack (maxN maxC : ℕ) (maxL : ℚ) (s : RawStats) : ScoredTrack :=
  let norm_note_count : ℚ := (s.num_notes : ℚ) / (maxN : ℚ)
  let norm_concurrency : ℚ := (s.concurrency : ℚ) / (maxC : ℚ)
  let norm_avg_length : ℚ := s.avg_length / maxL
  let is_bass_prog : ℚ := if 33 ≤ s.program ∧ s.program ≤ 40 then 1 else 0
  { idx := s.idx
    bass_score := 0.5 * is_bass_prog + 0.5 * ((127 - s.avg_pitch) / 127)
    chord_score := 0.45 * norm_concurrency + 0.45 * norm_avg_length + 0.1 * norm_note_count
    melody_score :=
      0.45 * (s.avg_pitch / 127)
        + 0.45 * (((maxC : ℚ) - (s.concurrency : ℚ)) / (maxC : ℚ))
        + 0.1 * norm_note_count
    avg_pitch := s.avg_pitch
    concurrency := s.concurrency
    avg_length := s.avg_length
    num_notes := s.num_notes }

/-- Normalization constants plus scoring pass of `inspect_dataset.py`. -/
def resultsOf (stats : List RawStats) : List ScoredTrack :=
  stats.map (scoreTrack (maxNumNotesOf stats) (maxConcurrencyOf stats) (maxAvgLengthOf stats))

/-- `analyze_midi` of `inspect_dataset.py`: no arity branches, always the
fixed-order bass → melody → chords selection. -/
def analyze_midi (pm : List Instrument) : Option (List (Role × ℕ)) :=
  match statsOf (nonDrum pm) with
  | [] => none
  | s0 :: srest => select3 (resultsOf (s0 :: srest))

end InspectDataset

/-- The eligible tracks of a parsed MIDI structure: non-drum and at least one
note (the tracks that survive into `stats`). -/
def eligibleOf (pm : List Instrument) : List (ℕ × Instrument) :=
  (nonDrum pm).filter (fun p => !(p.2.notes.length = 0 : Bool))

/-- `x` is the first element of `l` attaining the maximal value of `score`:
everything in `l` scores at most `score x` and everything before `x` scores
strictly less. This is exactly the element a stable descending sort puts
first. -/
def IsFirstMax (score : α → ℚ) (l : List α) (x : α) : Prop :=
  ∃ l1 l2, l = l1 ++ x :: l2 ∧ (∀ y ∈ l, score y ≤ score x) ∧ ∀ y ∈ l1, score y < score x

/-! ## Concrete inputs used by witnesses and counterexamples -/

/-- The spec's end-to-end tokenizer example: three notes with raw start times
0.0s, 0.031s, 2.0s and pitches 60, 64, 67. -/
def exampleSong : List Instrument :=
  [⟨0, false, [⟨60, 0, 1⟩, ⟨64, 31 / 1000, 1⟩, ⟨67, 2, 3⟩]⟩]

/-- Two eligible tracks whose normalized concurrency and normalized average
length differ, separating the two chord-score weightings. -/
def chordWeightSong : List Instrument :=
  [⟨0, false, [⟨60, 0, 1⟩, ⟨60, 1 / 2, 1⟩]⟩, ⟨0, false, [⟨40, 0, 2⟩]⟩]

/-- A file whose only track is non-drum but has zero notes. -/
def emptyTrackSong : List Instrument :=
  [⟨0, false, []⟩]

/-- The spec's 2-track classification example: track A with program 36,
average pitch 40, concurrency 0; track B with program 80, average pitch 90,
concurrency 5 (six overlapping notes). -/
def twoTrackSong : List Instrument :=
  [⟨36, false, [⟨40, 0, 1⟩]⟩,
    ⟨80, false,
      [⟨90, 0, 1⟩, ⟨90, 1 / 2, 3 / 2⟩, ⟨90, 1, 2⟩, ⟨90, 3 / 2, 5 / 2⟩, ⟨90, 2, 3⟩,
        ⟨90, 5 / 2, 7 / 2⟩]⟩]

/-- A three-track input: a bass-program low track, a high melody track and a
sustained two-note chord track. -/
def threeTrackSong : List Instrument :=
  [⟨33, false, [⟨30, 0, 1⟩]⟩,
    ⟨0, false, [⟨80, 0, 1 / 2⟩, ⟨85, 1, 3 / 2⟩]⟩,
    ⟨0, false, [⟨50, 0, 2⟩, ⟨55, 0, 2⟩]⟩]

/-! ## Helper lemmas: vocabulary -/

set_option maxRecDepth 8000 in
/-- `event2token` sends `NOTE_ON p` to `p` for every pitch in range. -/
theorem tokId_noteOn : ∀ p : ℕ, p < 128 → tokId (MidiEvent.NOTE_ON p) = p := by
  decide

set_option maxRecDepth 8000 in
/-- `event2token` sends `TIME_SHIFT s` to `127 + s` for every shift in range. -/
theorem tokId_timeShift : ∀ s : ℕ, s < 101 → 1 ≤ s → tokId (MidiEvent.TIME_SHIFT s) = 127 + s := by
  decide

set_option maxRecDepth 8000 in
/-- `token2event` recovers the `NOTE_ON` event from its id. -/
theorem token2event_noteOn : ∀ p : ℕ, p < 128 → token2event p = some (MidiEvent.NOTE_ON p) := by
  decide

/-! ## Helper lemmas: stable sort -/

theorem stableInsert_perm (lt : α → α → Bool) (a : α) (l : List α) :
    (stableInsert lt a l).Perm (a :: l) := by
  induction l with
  | nil => exact List.Perm.refl _
  | cons b t ih =>
      rw [stableInsert]
      split
      · exact (ih.cons b).trans (List.Perm.swap a b t)
      · exact List.Perm.refl _

theorem stableSort_perm (lt : α → α → Bool) (l : List α) : (stableSort lt l).Perm l := by
  induction l with
  | nil => exact List.Perm.refl _
  | cons a t ih => exact (stableInsert_perm lt a (stableSort lt t)).trans (ih.cons a)

theorem stableSort_length (lt : α → α → Bool) (l : List α) :
    (stableSort lt l).length = l.length :=
  (stableSort_perm lt l).length_eq

theorem stableSort_mem (lt : α → α → Bool) (l : List α) (x : α) :
    x ∈ stableSort lt l ↔ x ∈ l :=
  (stableSort_perm lt l).mem_iff

theorem stableInsert_pairwise (lt : α → α → Bool)
    (Han : ∀ x y, lt x y = true → lt y x = false)
    (Htr : ∀ x y z, lt y x = false → lt z y = false → lt z x = false)
    (a : α) (l : List α) (hl : l.Pairwise (fun x y => lt y x = false)) :
    (stableInsert lt a l).Pairwise (fun x y => lt y x = false) := by
  induction l with
  | nil => simp [stableInsert]
  | cons b t ih =>
      rw [List.pairwise_cons] at hl
      rw [stableInsert]
      split
      case isTrue h =>
        rw [List.pairwise_cons]
        refine ⟨?_, ih hl.2⟩
        intro y hy
        rcases List.mem_cons.mp ((stableInsert_perm lt a t).mem_iff.mp hy) with rfl | hyt
        · exact Han b y h
        · exact hl.1 y hyt
      case isFalse h =>
        rw [List.pairwise_cons]
        refine ⟨?_, List.pairwise_cons.mpr hl⟩
        intro y hy
        rcases List.mem_cons.mp hy with rfl | hyt
        · exact Bool.eq_false_iff.mpr h
        · exact Htr a b y (Bool.eq_false_iff.mpr h) (hl.1 y hyt)

theorem stableSort_pairwise (lt : α → α → Bool)
    (Han : ∀ x y, lt x y = true → lt y x = false)
    (Htr : ∀ x y z, lt y x = false → lt z y = false → lt z x = false)
    (l : List α) :
    (stableSort lt l).Pairwise (fun x y => lt y x = false) := by
  induction l with
  | nil => simp [stableSort]
  | cons a t ih => exact stableInsert_pairwise lt Han Htr a (stableSort lt t) ih

/-- The head of the stable descending sort by `score` is the first element of
the original list attaining the maximal score. -/
theorem stableSort_head_isFirstMax (score : α → ℚ) :
    ∀ (l : List α) (x : α) (t : List α),
      stableSort (fun u v => decide (score v < score u)) l = x :: t → IsFirstMax score l x := by
  intro l
  induction l with
  | nil => intro x t h; simp [stableSort] at h
  | cons a l2 ih =>
      intro x t h
      rw [stableSort] at h
      rcases h2 : stableSort (fun u v => decide (score v < score u)) l2 with _ | ⟨b, t2⟩
      · rw [h2] at h
        have hl2 : l2 = [] := List.eq_nil_of_length_eq_zero (by
          have := stableSort_length (fun u v => decide (score v < score u)) l2
          rw [h2] at this
          simpa using this.symm)
        rw [stableInsert] at h
        obtain ⟨rfl, rfl⟩ : a = x ∧ ([] : List α) = t := by
          constructor <;> [exact (List.cons.injEq _ _ _ _ ▸ h).1; exact (List.cons.injEq _ _ _ _ ▸ h).2]
        subst hl2
        exact ⟨[], [], rfl, by simp, by simp⟩
      · rw [h2] at h
        obtain ⟨l1, l2b, hdec, hmax, hpre⟩ := ih b t2 h2
        rw [stableInsert] at h
        split at h
        case isTrue hba =>
          have hab : score a < score b := of_decide_eq_true hba
          obtain ⟨rfl, -⟩ : b = x ∧ stableInsert (fun u v => decide (score v < score u)) a t2 = t := by
            constructor <;> [exact (List.cons.injEq _ _ _ _ ▸ h).1; exact (List.cons.injEq _ _ _ _ ▸ h).2]
          refine ⟨a :: l1, l2b, by rw [hdec]; rfl, ?_, ?_⟩
          · intro y hy
            rcases List.mem_cons.mp hy with rfl | hyl2
            · exact hab.le
            · exact hmax y (by rw [hdec]; exact hdec ▸ hyl2)
          · intro y hy
            rcases List.mem_cons.mp hy with rfl | hyl1
            · exact hab
            · exact hpre y hyl1
        case isFalse hba =>
          have hab : score a ≥ score b := le_of_not_lt (of_decide_eq_false (Bool.eq_false_iff.mpr hba))
          obtain ⟨rfl, -⟩ : a = x ∧ b :: t2 = t := by
            constructor <;> [exact (List.cons.injEq _ _ _ _ ▸ h).1; exact (List.cons.injEq _ _ _ _ ▸ h).2]
          refine ⟨[], l2, rfl, ?_, by simp⟩
          intro y hy
          rcases List.mem_cons.mp hy with rfl | hyl2
          · exact le_refl _
          · exact (hmax y hyl2).trans hab

/-! ## Helper lemmas: shift emission -/

theorem emitShifts_nonpos (delta : ℤ) (h : delta ≤ 0) : emitShifts delta = [] := by
  rw [emitShifts, dif_neg (by omega)]

/-- Closed form of the `while delta > 0` loop: the greedy split emits all the
`MAX_SHIFT`-sized shifts first and the remainder (if any) last. -/
theorem emitShifts_closed (n : ℕ) :
    emitShifts (n : ℤ) =
      List.replicate (n / 100) (tokId (MidiEvent.TIME_SHIFT 100))
        ++ (if n % 100 = 0 then [] else [tokId (MidiEvent.TIME_SHIFT (n % 100))]) := by
  induction n using Nat.strong_induction_on with
  | _ n ih =>
      have hms : ((MAX_SHIFT : ℕ) : ℤ) = 100 := by simp [MAX_SHIFT]
      rcases Nat.lt_or_ge 0 n with h0 | h0
      · rcases Nat.lt_or_ge n 101 with hsmall | hbig
        · rw [emitShifts, dif_pos (by exact_mod_cast h0)]
          have hmin : min (n : ℤ) ((MAX_SHIFT : ℕ) : ℤ) = (n : ℤ) := by rw [hms]; omega
          rw [hmin, Int.toNat_natCast, sub_self, emitShifts_nonpos 0 le_rfl]
          rcases Nat.lt_or_ge n 100 with hlt | hge
          · have h1 : n / 100 = 0 := by omega
            have h2 : n % 100 = n := by omega
            rw [h1, h2, if_neg (by omega)]
            simp
          · have hn : n = 100 := by omega
            subst hn
            simp
        · rw [emitShifts, dif_pos (by exact_mod_cast h0)]
          have hmin : min (n : ℤ) ((MAX_SHIFT : ℕ) : ℤ) = 100 := by rw [hms]; omega
          rw [hmin]
          have hsub : (n : ℤ) - 100 = ((n - 100 : ℕ) : ℤ) := by omega
          rw [hsub, ih (n - 100) (by omega)]
          have hdiv : n / 100 = (n - 100) / 100 + 1 := by omega
          have hmod : n % 100 = (n - 100) % 100 := by omega
          rw [hdiv, hmod, List.replicate_succ]
          simp
      · have hn : n = 0 := by omega
        subst hn
        rw [show ((0 : ℕ) : ℤ) = 0 by norm_num, emitShifts_nonpos 0 le_rfl]
        simp

/-! ## Claim C2: the token vocabulary is a bijection with the fixed layout -/

set_option maxRecDepth 8000 in
set_option maxHeartbeats 2000000 in
/-- C2: the token vocabulary is a bijection between ids `[0, 228)` and event
names, with `id = pitch` for `NOTE_ON_0..NOTE_ON_127`, `id = 127 + shift` for
`TIME_SHIFT_1..TIME_SHIFT_100`, and `VOCAB_SIZE = 228`; consequently
`idToEvent (eventToId name) = name` for every valid event name and
`eventToId (idToEvent id) = id` for every id in `[0, 228)`. -/
theorem c2_vocabulary_bijection :
    VOCAB_SIZE = 228
      ∧ (∀ idx : ℕ, idx < VOCAB_SIZE → (token2event idx).bind event2token = some idx)
      ∧ (∀ p : ℕ, p < 128 →
          event2token (MidiEvent.NOTE_ON p) = some p
            ∧ (event2token (MidiEvent.NOTE_ON p)).bind token2event
                = some (MidiEvent.NOTE_ON p))
      ∧ (∀ s : ℕ, s < 101 → 1 ≤ s →
          event2token (MidiEvent.TIME_SHIFT s) = some (127 + s)
            ∧ (event2token (MidiEvent.TIME_SHIFT s)).bind token2event
                = some (MidiEvent.TIME_SHIFT s)) := by
  exact ⟨by decide, by decide, by decide, by decide⟩

/-- Witness for C2 at id 227 and event name `TIME_SHIFT_100`. -/
theorem c2_vocabulary_bijection_witness :
    (token2event 227).bind event2token = some 227
      ∧ event2token (MidiEvent.TIME_SHIFT 100) = some 227 :=
  ⟨c2_vocabulary_bijection.2.1 227 (by decide),
    (c2_vocabulary_bijection.2.2.2 100 (by decide) (by decide)).1⟩

/-! ## Claim C1: structure of the emitted TIME_SHIFT tokens -/

/-- C1: between two consecutive occupied time bins (`delta = currentBin −
previousBin > 0`) the tokenizer emits `TIME_SHIFT` tokens that sum exactly to
`delta`, each with value in `[1, MAX_SHIFT]`, exactly `⌈delta / MAX_SHIFT⌉`
of them, `MAX_SHIFT`-valued shifts first and the remainder last; and the main
loop of `midi_to_token_sequence` emits exactly these tokens between bins. -/
theorem c1_time_shift_structure (delta : ℤ) (hpos : 0 < delta) :
    emitShifts delta =
        List.replicate (delta.toNat / 100) (tokId (MidiEvent.TIME_SHIFT 100))
          ++ (if delta.toNat % 100 = 0 then []
              else [tokId (MidiEvent.TIME_SHIFT (delta.toNat % 100))])
      ∧ ((emitShifts delta).map (fun t : ℕ => (t : ℤ) - 127)).sum = delta
      ∧ (∀ t ∈ emitShifts delta, 128 ≤ t ∧ t ≤ 227 ∧ 1 ≤ t - 127 ∧ t - 127 ≤ 100)
      ∧ (emitShifts delta).length = (delta.toNat + 99) / 100
      ∧ (∀ (prev curr : ℤ) (p : ℕ) (rest : List (ℤ × ℕ)),
          tokenLoop prev ((curr, p) :: rest) =
            emitShifts (curr - prev)
              ++ (tokId (MidiEvent.NOTE_ON p)
                    :: (rest.takeWhile (fun e => e.1 = curr)).map
                        (fun e => tokId (MidiEvent.NOTE_ON e.2)))
              ++ tokenLoop curr (rest.dropWhile (fun e => e.1 = curr))) := by
  have hcast : ((delta.toNat : ℕ) : ℤ) = delta := Int.toNat_of_nonneg hpos.le
  have hCF := emitShifts_closed delta.toNat
  rw [hcast] at hCF
  have h100 : tokId (MidiEvent.TIME_SHIFT 100) = 227 := tokId_timeShift 100 (by omega) (by omega)
  have hn0 : 0 < delta.toNat := by omega
  have hsumrep : ∀ (k : ℕ),
      ((List.replicate k (tokId (MidiEvent.TIME_SHIFT 100))).map
          (fun t : ℕ => (t : ℤ) - 127)).sum = (k : ℤ) * 100 := by
    intro k
    induction k with
    | zero => simp
    | succ k ihk =>
        rw [List.replicate_succ, List.map_cons, List.sum_cons, ihk, h100]
        push_cast
        ring
  refine ⟨hCF, ?_, ?_, ?_, ?_⟩
  · rw [hCF, List.map_append, List.sum_append, hsumrep]
    by_cases hr : delta.toNat % 100 = 0
    · rw [if_pos hr]
      simp only [List.map_nil, List.sum_nil]
      omega
    · rw [if_neg hr]
      have hrb : tokId (MidiEvent.TIME_SHIFT (delta.toNat % 100)) = 127 + delta.toNat % 100 :=
        tokId_timeShift _ (by omega) (by omega)
      rw [hrb]
      simp only [List.map_cons, List.map_nil, List.sum_cons, List.sum_nil]
      push_cast
      omega
  · intro t ht
    rw [hCF] at ht
    rcases List.mem_append.mp ht with hrep | hrem
    · rw [List.eq_of_mem_replicate hrep, h100]
      omega
    · by_cases hr : delta.toNat % 100 = 0
      · rw [if_pos hr] at hrem
        simp at hrem
      · rw [if_neg hr] at hrem
        have hrb : tokId (MidiEvent.TIME_SHIFT (delta.toNat % 100)) = 127 + delta.toNat % 100 :=
          tokId_timeShift _ (by omega) (by omega)
        rw [List.mem_singleton.mp hrem, hrb]
        omega
  · rw [hCF]
    rw [List.length_append, List.length_replicate]
    by_cases hr : delta.toNat % 100 = 0
    · rw [if_pos hr]
      simp only [List.length_nil]
      omega
    · rw [if_neg hr]
      simp only [List.length_singleton]
      omega
  · intro prev curr p rest
    rw [tokenLoop]

/-- Witness for C1 at `delta = 250`: two `TIME_SHIFT_100` tokens followed by
one `TIME_SHIFT_50` token. -/
theorem c1_time_shift_structure_witness :
    emitShifts 250 =
        List.replicate ((250 : ℤ).toNat / 100) (tokId (MidiEvent.TIME_SHIFT 100))
          ++ (if (250 : ℤ).toNat % 100 = 0 then []
              else [tokId (MidiEvent.TIME_SHIFT ((250 : ℤ).toNat % 100))])
      ∧ ((emitShifts 250).map (fun t : ℕ => (t : ℤ) - 127)).sum = 250
      ∧ (∀ t ∈ emitShifts 250, 128 ≤ t ∧ t ≤ 227 ∧ 1 ≤ t - 127 ∧ t - 127 ≤ 100)
      ∧ (emitShifts 250).length = ((250 : ℤ).toNat + 99) / 100 :=
  ⟨(c1_time_shift_structure 250 (by norm_num)).1,
    (c1_time_shift_structure 250 (by norm_num)).2.1,
    (c1_time_shift_structure 250 (by norm_num)).2.2.1,
    (c1_time_shift_structure 250 (by norm_num)).2.2.2.1⟩

/-! ## Claim C7: empty input and single-note input -/

/-- C7: tokenizing a parsed file with zero note events returns the empty
token sequence (rather than failing), and tokenizing a note list with exactly
one note yields exactly one `NOTE_ON` token and no `TIME_SHIFT` token. -/
theorem c7_empty_and_single_note :
    (∀ pm : List Instrument, note_events_of pm = [] → midi_to_token_sequence pm = [])
      ∧ (∀ (pm : List Instrument) (b : ℤ) (p : ℕ), p < 128 → note_events_of pm = [(b, p)] →
          midi_to_token_sequence pm = [tokId (MidiEvent.NOTE_ON p)]
            ∧ midi_to_token_sequence pm = [p]
            ∧ token2event p = some (MidiEvent.NOTE_ON p)) := by
  constructor
  · intro pm h
    rw [midi_to_token_sequence, h]
    simp
  · intro pm b p hp h
    have hmain : midi_to_token_sequence pm = [tokId (MidiEvent.NOTE_ON p)] := by
      rw [midi_to_token_sequence, h]
      simp only [List.isEmpty_cons, if_false, Bool.false_eq_true]
      rw [show stableSort ltEvent [(b, p)] = [(b, p)] from rfl]
      simp [tokenLoop]
    exact ⟨hmain, by rw [hmain, tokId_noteOn p hp], token2event_noteOn p hp⟩

/-- Witness for C7: the empty file and a one-note file with pitch 60. -/
theorem c7_empty_and_single_note_witness :
    midi_to_token_sequence [⟨0, false, []⟩] = []
      ∧ midi_to_token_sequence [⟨0, false, [⟨60, 0, 1⟩]⟩] = [60] :=
  ⟨c7_empty_and_single_note.1 [⟨0, false, []⟩] (by rfl),
    (c7_empty_and_single_note.2 [⟨0, false, [⟨60, 0, 1⟩]⟩] 0 60 (by norm_num)
        (by norm_num [note_events_of, quantize_time, pyRound, TIME_STEP])).2.1⟩

/-! ## Claim C5: end-to-end example tokenization -/

/-- C5: three notes with raw start times 0.0s, 0.031s, 2.0s and pitches 60,
64, 67 quantize (with `TIME_STEP = 0.03`) to time bins 0, 1, 67 and tokenize
to exactly `[NOTE_ON_60, TIME_SHIFT_1, NOTE_ON_64, TIME_SHIFT_66,
NOTE_ON_67]`, i.e. the token ids `[60, 128, 64, 193, 67]`. -/
theorem c5_example_tokenization :
    note_events_of exampleSong = [(0, 60), (1, 64), (67, 67)]
      ∧ midi_to_token_sequence exampleSong = [60, 128, 64, 193, 67]
      ∧ midi_to_token_sequence exampleSong =
          [tokId (MidiEvent.NOTE_ON 60), tokId (MidiEvent.TIME_SHIFT 1),
            tokId (MidiEvent.NOTE_ON 64), tokId (MidiEvent.TIME_SHIFT 66),
            tokId (MidiEvent.NOTE_ON 67)] := by
  have h : note_events_of exampleSong = [(0, 60), (1, 64), (67, 67)] := by
    norm_num [exampleSong, note_events_of, quantize_time, pyRound, TIME_STEP, Int.floor_eq_iff]
  have h2 : midi_to_token_sequence exampleSong = [60, 128, 64, 193, 67] := by
    rw [midi_to_token_sequence, h]
    simp only [stableSort, stableInsert, ltEvent]
    norm_num
    simp only [tokenLoop, List.takeWhile, List.dropWhile]
    norm_num [tokenLoop]
    rw [show emitShifts 1 = [tokId (MidiEvent.TIME_SHIFT 1)] from by simp [emitShifts, MAX_SHIFT],
      show emitShifts 66 = [tokId (MidiEvent.TIME_SHIFT 66)] from by simp [emitShifts, MAX_SHIFT]]
    refine ⟨by decide, by decide⟩
  exact ⟨h, h2, by rw [h2]; decide⟩

/-! ## Helper lemmas: statistics pass -/

theorem enumFrom_pairwise_fst (l : List Instrument) :
    ∀ n : ℕ, (List.enumFrom n l).Pairwise (fun a b => a.1 < b.1) := by
  induction l with
  | nil => intro n; simp
  | cons a t ih =>
      intro n
      rw [List.enumFrom_cons, List.pairwise_cons]
      refine ⟨?_, ih (n + 1)⟩
      intro b hb
      have := (List.mem_enumFrom hb).1
      omega

theorem nonDrum_pairwise_fst (pm : List Instrument) :
    (nonDrum pm).Pairwise (fun a b => a.1 < b.1) := by
  have h : pm.enum.Pairwise (fun a b => a.1 < b.1) := by
    rw [List.enum]
    exact enumFrom_pairwise_fst pm 0
  exact h.filter _

theorem statsOf_pairwise_idx (instruments : List (ℕ × Instrument))
    (h : instruments.Pairwise (fun a b => a.1 < b.1)) :
    (statsOf instruments).Pairwise (fun a b => a.idx < b.idx) := by
  rw [statsOf, List.pairwise_filterMap]
  refine h.imp_of_mem ?_
  intro a b _ _ hab s hs r hr
  split at hs
  · exact absurd hs (by simp)
  · split at hr
    · exact absurd hr (by simp)
    · rw [Option.mem_some_iff] at hs hr
      subst hs
      subst hr
      simpa using hab

theorem statsOf_idx_mem (instruments : List (ℕ × Instrument)) (s : RawStats)
    (hs : s ∈ statsOf instruments) : s.idx ∈ instruments.map Prod.fst := by
  rw [statsOf, List.mem_filterMap] at hs
  obtain ⟨p, hp, heq⟩ := hs
  rw [List.mem_map]
  refine ⟨p, hp, ?_⟩
  split at heq
  · exact absurd heq (by simp)
  · obtain rfl := Option.some.inj heq
    rfl

theorem statsOf_num_notes_pos (instruments : List (ℕ × Instrument)) (s : RawStats)
    (hs : s ∈ statsOf instruments) : 0 < s.num_notes := by
  rw [statsOf, List.mem_filterMap] at hs
  obtain ⟨p, _, heq⟩ := hs
  split at heq
  · exact absurd heq (by simp)
  · obtain rfl := Option.some.inj heq
    simpa using Nat.pos_of_ne_zero (by assumption)

theorem statsOf_eq_nil_iff (pm : List Instrument) :
    statsOf (nonDrum pm) = [] ↔ eligibleOf pm = [] := by
  rw [statsOf, eligibleOf]
  generalize nonDrum pm = l
  induction l with
  | nil => simp
  | cons a t ih =>
      rw [List.filterMap_cons, List.filter_cons]
      by_cases h : a.2.notes.length = 0
      · rw [if_pos h]
        simp only [h]
        exact ih
      · rw [if_neg h]
        simp [h]

/-! ## Helper lemmas: results and score lists -/

theorem IsFirstMax.mem {score : α → ℚ} {l : List α} {x : α} (h : IsFirstMax score l x) :
    x ∈ l := by
  obtain ⟨l1, l2, rfl, -, -⟩ := h
  simp

theorem resultsOf_pairwise_idx_sm (stats : List RawStats)
    (h : stats.Pairwise (fun a b => a.idx < b.idx)) :
    (SimplifyMidis.resultsOf stats).Pairwise (fun a b => a.idx ≠ b.idx) := by
  rw [SimplifyMidis.resultsOf, List.pairwise_map]
  exact h.imp (by intro a b hab; simpa [SimplifyMidis.scoreTrack] using Nat.ne_of_lt hab)

theorem filter_ne_idx_length (l : List ScoredTrack) (x : ScoredTrack) (hx : x ∈ l)
    (h : l.Pairwise (fun a b => a.idx ≠ b.idx)) :
    (l.filter (fun r => r.idx ≠ x.idx)).length + 1 = l.length := by
  induction l with
  | nil => simp at hx
  | cons a t ih =>
      rw [List.pairwise_cons] at h
      rcases List.mem_cons.mp hx with rfl | hxt
      · rw [List.filter_cons, if_neg (by simp)]
        rw [List.filter_eq_self.mpr ?_]
        · simp
        · intro b hb
          simpa using (h.1 b hb).symm
      · rw [List.filter_cons, if_pos (by simpa using h.1 x hxt)]
        rw [List.length_cons, ih hxt h.2]
        simp

/-! ## Helper lemmas: greedy assignment of the 2-track branch -/

theorem greedyAssign_first (i : ℕ) (r : Role) (s : ℚ) (rest : List (ℕ × Role × ℚ)) :
    greedyAssign ((i, r, s) :: rest) [] [] [] =
      greedyAssign rest [i] [r] [(r, i)] := by
  rw [greedyAssign, if_pos ⟨by simp, by simp⟩, if_neg (by simp)]
  simp

/-- Walking the tail after the first assignment: the first compatible entry
(instrument and role both unclaimed) is assigned and the greedy loop stops at
two assignments. -/
theorem greedyAssign_second (i1 : ℕ) (r1 : Role) :
    ∀ T : List (ℕ × Role × ℚ), (∃ e ∈ T, e.1 ≠ i1 ∧ e.2.1 ≠ r1) →
      ∃ e2 ∈ T, e2.1 ≠ i1 ∧ e2.2.1 ≠ r1 ∧
        greedyAssign T [i1] [r1] [(r1, i1)] = [(r1, i1), (e2.2.1, e2.1)] := by
  intro T
  induction T with
  | nil => rintro ⟨e, he, -⟩; simp at he
  | cons f t ih =>
      rintro ⟨e, he, hei, her⟩
      obtain ⟨fi, fr, fs⟩ := f
      by_cases hc : fi ≠ i1 ∧ fr ≠ r1
      · refine ⟨(fi, fr, fs), by simp, hc.1, hc.2, ?_⟩
        rw [greedyAssign, if_pos ⟨by simpa using hc.1, by simpa using hc.2⟩, if_pos (by simp)]
        simp
      · have hskip : ¬((fi ∉ [i1]) ∧ (fr ∉ [r1])) := by
          simpa using hc
        have het : e ∈ t := by
          rcases List.mem_cons.mp he with rfl | het
          · exact absurd ⟨hei, her⟩ hc
          · exact het
        obtain ⟨e2, he2, h1, h2, h3⟩ := ih ⟨e, het, hei, her⟩
        exact ⟨e2, List.mem_cons_of_mem _ he2, h1, h2, by rw [greedyAssign, if_neg hskip]; exact h3⟩

/-- Incompatible entries before the first compatible one are skipped. -/
theorem greedyAssign_skip_prefix (i1 : ℕ) (r1 : Role) :
    ∀ (T1 : List (ℕ × Role × ℚ)) (e2 : ℕ × Role × ℚ) (T2 : List (ℕ × Role × ℚ)),
      (∀ f ∈ T1, f.1 = i1 ∨ f.2.1 = r1) → e2.1 ≠ i1 → e2.2.1 ≠ r1 →
      greedyAssign (T1 ++ e2 :: T2) [i1] [r1] [(r1, i1)] = [(r1, i1), (e2.2.1, e2.1)] := by
  intro T1
  induction T1 with
  | nil =>
      intro e2 T2 _ h1 h2
      obtain ⟨i2, r2, s2⟩ := e2
      rw [List.nil_append, greedyAssign,
        if_pos ⟨by simpa using h1, by simpa using h2⟩, if_pos (by simp)]
      simp
  | cons f t ih =>
      intro e2 T2 hskip h1 h2
      obtain ⟨fi, fr, fs⟩ := f
      have hf := hskip (fi, fr, fs) (by simp)
      rw [List.cons_append, greedyAssign, if_neg ?_]
      · exact ih e2 T2 (fun g hg => hskip g (List.mem_cons_of_mem _ hg)) h1 h2
      · rcases hf with hf | hf
        · exact fun hcc => hcc.1 (List.mem_singleton.mpr hf)
        · exact fun hcc => hcc.2 (List.mem_singleton.mpr hf)

/-! ## Helper lemmas: selection characterizations -/

/-- The fixed-order selection for three or more tracks: the bass pick is the
first maximum of the bass scores over all tracks, the melody pick the first
maximum of the melody scores over the rest, the chords pick the first maximum
of the chord scores over what remains. -/
theorem select3_spec (results : List ScoredTrack) (hlen : 3 ≤ results.length)
    (hpw : results.Pairwise (fun a b => a.idx ≠ b.idx)) :
    ∃ b m c : ScoredTrack,
      select3 results = some [(Role.bass, b.idx), (Role.melody, m.idx), (Role.chords, c.idx)]
        ∧ IsFirstMax ScoredTrack.bass_score results b
        ∧ IsFirstMax ScoredTrack.melody_score (results.filter (fun r => r.idx ≠ b.idx)) m
        ∧ IsFirstMax ScoredTrack.chord_score
            ((results.filter (fun r => r.idx ≠ b.idx)).filter (fun r => r.idx ≠ m.idx)) c := by
  rcases hb : stableSort ltByBass results with _ | ⟨b, tb⟩
  · have := stableSort_length ltByBass results
    rw [hb] at this
    simp at this
    omega
  · have hBfm : IsFirstMax ScoredTrack.bass_score results b :=
      stableSort_head_isFirstMax ScoredTrack.bass_score results b tb hb
    have hlenR : (results.filter (fun r => r.idx ≠ b.idx)).length + 1 = results.length :=
      filter_ne_idx_length results b hBfm.mem hpw
    rcases hm : stableSort ltByMelody (results.filter (fun r => r.idx ≠ b.idx)) with _ | ⟨m, tm⟩
    · have := stableSort_length ltByMelody (results.filter (fun r => r.idx ≠ b.idx))
      rw [hm] at this
      simp only [List.length_nil] at this
      omega
    · have hMfm : IsFirstMax ScoredTrack.melody_score (results.filter (fun r => r.idx ≠ b.idx)) m :=
        stableSort_head_isFirstMax ScoredTrack.melody_score _ m tm hm
      have hpwR : (results.filter (fun r => r.idx ≠ b.idx)).Pairwise (fun a b => a.idx ≠ b.idx) :=
        hpw.filter _
      have hlenR2 :
          ((results.filter (fun r => r.idx ≠ b.idx)).filter (fun r => r.idx ≠ m.idx)).length + 1 =
            (results.filter (fun r => r.idx ≠ b.idx)).length :=
        filter_ne_idx_length _ m hMfm.mem hpwR
      rcases hc : stableSort ltByChord
          ((results.filter (fun r => r.idx ≠ b.idx)).filter (fun r => r.idx ≠ m.idx)) with _ | ⟨c, tc⟩
      · have := stableSort_length ltByChord
            ((results.filter (fun r => r.idx ≠ b.idx)).filter (fun r => r.idx ≠ m.idx))
        rw [hc] at this
        simp only [List.length_nil] at this
        omega
      · have hCfm : IsFirstMax ScoredTrack.chord_score
            ((results.filter (fun r => r.idx ≠ b.idx)).filter (fun r => r.idx ≠ m.idx)) c :=
          stableSort_head_isFirstMax ScoredTrack.chord_score _ c tc hc
        refine ⟨b, m, c, ?_, hBfm, hMfm, hCfm⟩
        rw [select3, hb]
        simp only []
        rw [hm]
        simp only []
        rw [hc]

theorem flattenTwo_pair (r1 r2 : ScoredTrack) :
    SimplifyMidis.flattenTwo [r1, r2] =
      [(r1.idx, Role.bass, r1.bass_score), (r1.idx, Role.melody, r1.melody_score),
        (r1.idx, Role.chords, r1.chord_score), (r2.idx, Role.bass, r2.bass_score),
        (r2.idx, Role.melody, r2.melody_score), (r2.idx, Role.chords, r2.chord_score)] := by
  simp [SimplifyMidis.flattenTwo]

/-- The 2-track branch always produces exactly two assignments, with two
distinct roles, two distinct tracks, and only tracks from the input pair. -/
theorem analyzeScored_two (r1 r2 : ScoredTrack) (hne : r1.idx ≠ r2.idx) :
    ∃ (ρ1 ρ2 : Role) (i1 i2 : ℕ),
      SimplifyMidis.analyzeScored [r1, r2] = some [(ρ1, i1), (ρ2, i2)]
        ∧ i1 ≠ i2 ∧ ρ1 ≠ ρ2
        ∧ i1 ∈ ([r1.idx, r2.idx] : List ℕ) ∧ i2 ∈ ([r1.idx, r2.idx] : List ℕ) := by
  have hF := flattenTwo_pair r1 r2
  have hidx : ∀ f ∈ SimplifyMidis.flattenTwo [r1, r2], f.1 = r1.idx ∨ f.1 = r2.idx := by
    rw [hF]
    intro f hf
    fin_cases hf <;> simp
  rcases hS : stableSort ltByScore (SimplifyMidis.flattenTwo [r1, r2]) with _ | ⟨e1, T⟩
  · exfalso
    have := stableSort_length ltByScore (SimplifyMidis.flattenTwo [r1, r2])
    rw [hS, hF] at this
    simp at this
  · have hperm : (e1 :: T).Perm (SimplifyMidis.flattenTwo [r1, r2]) := by
      rw [← hS]
      exact stableSort_perm _ _
    have he1F : e1 ∈ SimplifyMidis.flattenTwo [r1, r2] := hperm.subset (by simp)
    obtain ⟨ei, er, es⟩ := e1
    have hwit : ∃ w ∈ SimplifyMidis.flattenTwo [r1, r2],
        w.1 ≠ ei ∧ w.2.1 ≠ er ∧ w ≠ (ei, er, es) := by
      rw [hF] at he1F ⊢
      simp only [List.mem_cons, List.not_mem_nil, or_false] at he1F
      rcases he1F with h | h | h | h | h | h
      · obtain ⟨h1, h2, h3⟩ : ei = r1.idx ∧ er = Role.bass ∧ es = r1.bass_score := by
          simpa [Prod.ext_iff] using h
        subst h1; subst h2; subst h3
        exact ⟨(r2.idx, Role.melody, r2.melody_score), by simp, Ne.symm hne, by simp,
          fun hh => Ne.symm hne (congrArg Prod.fst hh)⟩
      · obtain ⟨h1, h2, h3⟩ : ei = r1.idx ∧ er = Role.melody ∧ es = r1.melody_score := by
          simpa [Prod.ext_iff] using h
        subst h1; subst h2; subst h3
        exact ⟨(r2.idx, Role.bass, r2.bass_score), by simp, Ne.symm hne, by simp,
          fun hh => Ne.symm hne (congrArg Prod.fst hh)⟩
      · obtain ⟨h1, h2, h3⟩ : ei = r1.idx ∧ er = Role.chords ∧ es = r1.chord_score := by
          simpa [Prod.ext_iff] using h
        subst h1; subst h2; subst h3
        exact ⟨(r2.idx, Role.bass, r2.bass_score), by simp, Ne.symm hne, by simp,
          fun hh => Ne.symm hne (congrArg Prod.fst hh)⟩
      · obtain ⟨h1, h2, h3⟩ : ei = r2.idx ∧ er = Role.bass ∧ es = r2.bass_score := by
          simpa [Prod.ext_iff] using h
        subst h1; subst h2; subst h3
        exact ⟨(r1.idx, Role.melody, r1.melody_score), by simp, hne, by simp,
          fun hh => hne (congrArg Prod.fst hh)⟩
      · obtain ⟨h1, h2, h3⟩ : ei = r2.idx ∧ er = Role.melody ∧ es = r2.melody_score := by
          simpa [Prod.ext_iff] using h
        subst h1; subst h2; subst h3
        exact ⟨(r1.idx, Role.bass, r1.bass_score), by simp, hne, by simp,
          fun hh => hne (congrArg Prod.fst hh)⟩
      · obtain ⟨h1, h2, h3⟩ : ei = r2.idx ∧ er = Role.chords ∧ es = r2.chord_score := by
          simpa [Prod.ext_iff] using h
        subst h1; subst h2; subst h3
        exact ⟨(r1.idx, Role.bass, r1.bass_score), by simp, hne, by simp,
          fun hh => hne (congrArg Prod.fst hh)⟩
    obtain ⟨w, hwF, hw1, hw2, hwne⟩ := hwit
    have hwT : w ∈ T := by
      rcases List.mem_cons.mp (hperm.mem_iff.mpr hwF) with h | h
      · exact absurd h hwne
      · exact h
    obtain ⟨e2, he2T, h21, h22, hgr⟩ := greedyAssign_second ei er T ⟨w, hwT, hw1, hw2⟩
    have he2F : e2 ∈ SimplifyMidis.flattenTwo [r1, r2] :=
      hperm.subset (List.mem_cons_of_mem _ he2T)
    refine ⟨er, e2.2.1, ei, e2.1, ?_, Ne.symm h21, Ne.symm h22, ?_, ?_⟩
    · show some (greedyAssign (stableSort ltByScore (SimplifyMidis.flattenTwo [r1, r2])) [] [] [])
          = some [(er, ei), (e2.2.1, e2.1)]
      rw [hS, greedyAssign_first, hgr]
    · simpa using hidx (ei, er, es) he1F
    · simpa using hidx e2 he2F

theorem resultsOf_idx_mem_sm (stats : List RawStats) (r : ScoredTrack)
    (hr : r ∈ SimplifyMidis.resultsOf stats) : ∃ s ∈ stats, r.idx = s.idx := by
  rw [SimplifyMidis.resultsOf, List.mem_map] at hr
  obtain ⟨s, hs, rfl⟩ := hr
  exact ⟨s, hs, rfl⟩

/-- Branch structure of `analyze_midi` (`simplify_midis.py`): either the
single-non-drum-track early return, or the `max()`-on-empty-`stats` failure,
or the scored-track selection. -/
theorem analyze_midi_shape (pm : List Instrument) :
    (∃ i inst, nonDrum pm = [(i, inst)]
        ∧ SimplifyMidis.analyze_midi pm = some [(Role.melody, i)])
      ∨ ((nonDrum pm).length ≠ 1 ∧ statsOf (nonDrum pm) = []
          ∧ SimplifyMidis.analyze_midi pm = none)
      ∨ ((nonDrum pm).length ≠ 1 ∧ statsOf (nonDrum pm) ≠ []
          ∧ SimplifyMidis.analyze_midi pm
              = SimplifyMidis.analyzeScored (SimplifyMidis.resultsOf (statsOf (nonDrum pm)))) := by
  rcases hnd : nonDrum pm with _ | ⟨x, xs⟩
  · refine Or.inr (Or.inl ⟨by simp, rfl, ?_⟩)
    rw [SimplifyMidis.analyze_midi, hnd]
    rfl
  · rcases xs with _ | ⟨y, ys⟩
    · obtain ⟨i, inst⟩ := x
      refine Or.inl ⟨i, inst, rfl, ?_⟩
      rw [SimplifyMidis.analyze_midi, hnd]
    · rcases hst : statsOf (x :: y :: ys) with _ | ⟨s0, srest⟩
      · refine Or.inr (Or.inl ⟨by simp, rfl, ?_⟩)
        rw [SimplifyMidis.analyze_midi, hnd]
        simp only [hst]
      · refine Or.inr (Or.inr ⟨by simp, by simp, ?_⟩)
        rw [SimplifyMidis.analyze_midi, hnd]
        simp only [hst]

/-- All scored-selection paths of `analyze_midi` (`simplify_midis.py`) return
a non-empty assignment with pairwise-distinct roles and tracks, and every
assigned track index comes from the statistics list. -/
theorem analyzeScored_of_stats (s0 : RawStats) (srest : List RawStats)
    (hpw : (s0 :: srest).Pairwise (fun a b => a.idx < b.idx)) :
    ∃ d, SimplifyMidis.analyzeScored (SimplifyMidis.resultsOf (s0 :: srest)) = some d
      ∧ d ≠ []
      ∧ d.Pairwise (fun a b => a.1 ≠ b.1 ∧ a.2 ≠ b.2)
      ∧ (∀ e ∈ d, ∃ s ∈ s0 :: srest, e.2 = s.idx)
      ∧ ((s0 :: srest).length = 2 → d.length = 2) := by
  have hpwR := resultsOf_pairwise_idx_sm (s0 :: srest) hpw
  rcases srest with _ | ⟨s1, srest1⟩
  · refine ⟨[(Role.melody, s0.idx)], rfl, by simp, by simp, ?_, by simp⟩
    intro e he
    rw [List.mem_singleton.mp he]
    exact ⟨s0, by simp, rfl⟩
  · rcases srest1 with _ | ⟨s2, srest2⟩
    · have hne : (SimplifyMidis.scoreTrack (maxNumNotesOf [s0, s1]) (maxConcurrencyOf [s0, s1])
          (maxAvgLengthOf [s0, s1]) s0).idx ≠
            (SimplifyMidis.scoreTrack (maxNumNotesOf [s0, s1]) (maxConcurrencyOf [s0, s1])
              (maxAvgLengthOf [s0, s1]) s1).idx := by
        have h01 : s0.idx < s1.idx := by
          rw [List.pairwise_cons] at hpw
          exact hpw.1 s1 (by simp)
        simpa [SimplifyMidis.scoreTrack] using Nat.ne_of_lt h01
      obtain ⟨p1, p2, i1, i2, heq, hi, hp, hm1, hm2⟩ :=
        analyzeScored_two
          (SimplifyMidis.scoreTrack (maxNumNotesOf [s0, s1]) (maxConcurrencyOf [s0, s1])
            (maxAvgLengthOf [s0, s1]) s0)
          (SimplifyMidis.scoreTrack (maxNumNotesOf [s0, s1]) (maxConcurrencyOf [s0, s1])
            (maxAvgLengthOf [s0, s1]) s1)
          hne
      refine ⟨[(p1, i1), (p2, i2)], ?_, by simp, by simp [hi, hp], ?_, by simp⟩
      · rw [show SimplifyMidis.resultsOf [s0, s1]
            = [SimplifyMidis.scoreTrack (maxNumNotesOf [s0, s1]) (maxConcurrencyOf [s0, s1])
                (maxAvgLengthOf [s0, s1]) s0,
              SimplifyMidis.scoreTrack (maxNumNotesOf [s0, s1]) (maxConcurrencyOf [s0, s1])
                (maxAvgLengthOf [s0, s1]) s1] from rfl]
        exact heq
      · intro e he
        simp only [SimplifyMidis.scoreTrack, List.mem_cons, List.mem_singleton,
          List.not_mem_nil, or_false] at hm1 hm2
        rcases List.mem_cons.mp he with rfl | he2
        · rcases hm1 with h | h
          · exact ⟨s0, by simp, h⟩
          · exact ⟨s1, by simp, h⟩
        · rw [List.mem_singleton.mp he2]
          rcases hm2 with h | h
          · exact ⟨s0, by simp, h⟩
          · exact ⟨s1, by simp, h⟩
    · have hlen : 3 ≤ (SimplifyMidis.resultsOf (s0 :: s1 :: s2 :: srest2)).length := by
        rw [SimplifyMidis.resultsOf]
        simp
      obtain ⟨b, m, c, hsel, hB, hM, hC⟩ :=
        select3_spec (SimplifyMidis.resultsOf (s0 :: s1 :: s2 :: srest2)) hlen hpwR
      have hmB : m.idx ≠ b.idx := by
        have := hM.mem
        rw [List.mem_filter] at this
        exact of_decide_eq_true this.2
      have hcBm : c.idx ≠ b.idx ∧ c.idx ≠ m.idx := by
        have := hC.mem
        rw [List.mem_filter] at this
        obtain ⟨hcin, hc2⟩ := this
        rw [List.mem_filter] at hcin
        exact ⟨of_decide_eq_true hcin.2, of_decide_eq_true hc2⟩
      refine ⟨[(Role.bass, b.idx), (Role.melody, m.idx), (Role.chords, c.idx)], ?_, by simp,
        ?_, ?_, by simp⟩
      · rw [show SimplifyMidis.analyzeScored (SimplifyMidis.resultsOf (s0 :: s1 :: s2 :: srest2))
            = select3 (SimplifyMidis.resultsOf (s0 :: s1 :: s2 :: srest2)) from rfl]
        exact hsel
      · simp only [List.pairwise_cons, List.mem_cons, List.mem_singleton, List.not_mem_nil,
          or_false]
        refine ⟨?_, ?_, by simp⟩
        · rintro e (rfl | rfl)
          · exact ⟨by simp, by simpa using hmB.symm⟩
          · exact ⟨by simp, by simpa using hcBm.1.symm⟩
        · rintro e rfl
          exact ⟨by simp, by simpa using hcBm.2.symm⟩
      · have hball : ∀ r : ScoredTrack, r ∈ SimplifyMidis.resultsOf (s0 :: s1 :: s2 :: srest2) →
            ∃ s ∈ s0 :: s1 :: s2 :: srest2, r.idx = s.idx := fun r hr =>
          resultsOf_idx_mem_sm _ r hr
        have hmem_b := hball b hB.mem
        have hmem_m := hball m (List.mem_of_mem_filter hM.mem)
        have hmem_c := hball c (List.mem_of_mem_filter (List.mem_of_mem_filter hC.mem))
        intro e he
        rcases List.mem_cons.mp he with rfl | he2
        · exact hmem_b
        · rcases List.mem_cons.mp he2 with rfl | he3
          · exact hmem_m
          · rw [List.mem_singleton.mp he3]
            exact hmem_c

/-! ## Claim C10: single non-drum track early return -/

/-- C10: when the non-drum track list has exactly one element, `analyze_midi`
returns `{melody: that track}` without examining its notes: the result holds
for every notes list, in particular when the track has zero notes. -/
theorem c10_single_track_early_return (pm : List Instrument) (i : ℕ) (inst : Instrument)
    (h : nonDrum pm = [(i, inst)]) :
    SimplifyMidis.analyze_midi pm = some [(Role.melody, i)] := by
  rw [SimplifyMidis.analyze_midi, h]

/-- Witness for C10: a file whose only track is non-drum with zero notes. -/
theorem c10_single_track_early_return_witness :
    SimplifyMidis.analyze_midi emptyTrackSong = some [(Role.melody, 0)] :=
  c10_single_track_early_return emptyTrackSong 0 ⟨0, false, []⟩ (by decide)

/-! ## Claim C8 (amended): when role classification fails -/

/-- C8, amended: `analyze_midi` fails (the `max()`-on-empty-`stats` exception,
the spec's `NoEligibleTracks`) iff the eligible-track list is empty AND the
non-drum track count is not exactly 1 (a single zero-note non-drum track is
returned as melody without failing); whenever at least one eligible track
exists the result is a non-empty assignment. -/
theorem c8_no_eligible_tracks (pm : List Instrument) :
    (SimplifyMidis.analyze_midi pm = none ↔ eligibleOf pm = [] ∧ (nonDrum pm).length ≠ 1)
      ∧ (eligibleOf pm ≠ [] → ∃ d, SimplifyMidis.analyze_midi pm = some d ∧ d ≠ []) := by
  have hiff := statsOf_eq_nil_iff pm
  have hpw := statsOf_pairwise_idx (nonDrum pm) (nonDrum_pairwise_fst pm)
  rcases analyze_midi_shape pm with ⟨i, inst, hnd, ha⟩ | ⟨hlen, hst, ha⟩ | ⟨hlen, hst, ha⟩
  · constructor
    · rw [ha]
      constructor
      · intro h
        exact absurd h (by simp)
      · rintro ⟨-, hne1⟩
        exact absurd (by rw [hnd]; rfl) hne1
    · intro _
      exact ⟨[(Role.melody, i)], ha, by simp⟩
  · constructor
    · rw [ha]
      exact ⟨fun _ => ⟨hiff.mp hst, hlen⟩, fun _ => rfl⟩
    · intro hne
      exact absurd (hiff.mp hst) hne
  · rcases hstv : statsOf (nonDrum pm) with _ | ⟨s0, srest⟩
    · exact absurd hstv hst
    · have hpw2 : (s0 :: srest).Pairwise (fun a b => a.idx < b.idx) := hstv ▸ hpw
      obtain ⟨d, hd, hdne, -, -, -⟩ := analyzeScored_of_stats s0 srest hpw2
      have ha2 : SimplifyMidis.analyze_midi pm = some d := by
        rw [ha, hstv]
        exact hd
      constructor
      · rw [ha2]
        constructor
        · intro h
          exact absurd h (by simp)
        · rintro ⟨hel, -⟩
          have : statsOf (nonDrum pm) = [] := hiff.mpr hel
          rw [hstv] at this
          exact absurd this (by simp)
      · intro _
        exact ⟨d, ha2, hdne⟩

/-! ## Claim C6: assignment invariants -/

/-- C6: every assignment returned by `analyze_midi` (`simplify_midis.py`) has
pairwise-distinct roles and pairwise-distinct tracks, and assigns only tracks
present in the input's non-drum list; with exactly 2 eligible tracks (the
greedy matching over the 6-entry score table), the result has exactly 2
entries. -/
theorem c6_assignment_invariants (pm : List Instrument) (d : List (Role × ℕ))
    (hd : SimplifyMidis.analyze_midi pm = some d) :
    d.Pairwise (fun a b => a.1 ≠ b.1 ∧ a.2 ≠ b.2)
      ∧ (∀ e ∈ d, e.2 ∈ (nonDrum pm).map Prod.fst)
      ∧ ((statsOf (nonDrum pm)).length = 2 → d.length = 2) := by
  have hpw := statsOf_pairwise_idx (nonDrum pm) (nonDrum_pairwise_fst pm)
  rcases analyze_midi_shape pm with ⟨i, inst, hnd, ha⟩ | ⟨hlen, hst, ha⟩ | ⟨hlen, hst, ha⟩
  · rw [ha] at hd
    obtain rfl := Option.some.inj hd
    refine ⟨by simp, ?_, ?_⟩
    · intro e he
      rw [List.mem_singleton.mp he, hnd]
      simp
    · intro h2
      exfalso
      have hle : (statsOf (nonDrum pm)).length ≤ 1 := by
        rw [hnd, statsOf]
        exact le_trans (List.length_filterMap_le _ _) (by simp)
      omega
  · rw [ha] at hd
    exact absurd hd (by simp)
  · rcases hstv : statsOf (nonDrum pm) with _ | ⟨s0, srest⟩
    · exact absurd hstv hst
    · have hpw2 : (s0 :: srest).Pairwise (fun a b => a.idx < b.idx) := hstv ▸ hpw
      obtain ⟨d2, hd2, -, hdpw, hdmem, hdlen⟩ := analyzeScored_of_stats s0 srest hpw2
      rw [ha, hstv] at hd
      obtain rfl := Option.some.inj (hd2.symm.trans hd)
      refine ⟨hdpw, ?_, hdlen⟩
      intro e he
      obtain ⟨s, hs, hes⟩ := hdmem e he
      rw [hes]
      exact statsOf_idx_mem _ s (by rw [hstv]; exact hs)

/-! ## Claim C3: fixed-order selection for three or more eligible tracks -/

/-- C3: with 3 or more eligible tracks, `analyze_midi` picks as bass the
first track attaining the maximal bass score over all scored tracks (ties →
earliest in input order), then as melody the first maximum of the melody
scores over the remainder, then as chords the first maximum of the chord
scores over what remains. -/
theorem c3_three_track_selection (pm : List Instrument)
    (h3 : 3 ≤ (statsOf (nonDrum pm)).length) :
    ∃ b m c : ScoredTrack,
      SimplifyMidis.analyze_midi pm
          = some [(Role.bass, b.idx), (Role.melody, m.idx), (Role.chords, c.idx)]
        ∧ IsFirstMax ScoredTrack.bass_score
            (SimplifyMidis.resultsOf (statsOf (nonDrum pm))) b
        ∧ IsFirstMax ScoredTrack.melody_score
            ((SimplifyMidis.resultsOf (statsOf (nonDrum pm))).filter
              (fun r => r.idx ≠ b.idx)) m
        ∧ IsFirstMax ScoredTrack.chord_score
            (((SimplifyMidis.resultsOf (statsOf (nonDrum pm))).filter
              (fun r => r.idx ≠ b.idx)).filter (fun r => r.idx ≠ m.idx)) c := by
  have hpw := statsOf_pairwise_idx (nonDrum pm) (nonDrum_pairwise_fst pm)
  have hpwR := resultsOf_pairwise_idx_sm _ hpw
  have hlenR : 3 ≤ (SimplifyMidis.resultsOf (statsOf (nonDrum pm))).length := by
    rw [SimplifyMidis.resultsOf]
    simpa using h3
  obtain ⟨b, m, c, hsel, hB, hM, hC⟩ := select3_spec _ hlenR hpwR
  refine ⟨b, m, c, ?_, hB, hM, hC⟩
  rcases analyze_midi_shape pm with ⟨i, inst, hnd, ha⟩ | ⟨hlen, hst, ha⟩ | ⟨hlen, hst, ha⟩
  · exfalso
    have hle : (statsOf (nonDrum pm)).length ≤ 1 := by
      rw [hnd, statsOf]
      exact le_trans (List.length_filterMap_le _ _) (by simp)
    omega
  · rw [hst] at h3
    simp at h3
  · rw [ha]
    rcases hstv : statsOf (nonDrum pm) with _ | ⟨s0, srest⟩
    · exact absurd hstv hst
    · rw [hstv] at h3
      rcases srest with _ | ⟨s1, srest1⟩
      · simp at h3
      · rcases srest1 with _ | ⟨s2, srest2⟩
        · simp at h3
        · rw [show SimplifyMidis.analyzeScored
                (SimplifyMidis.resultsOf (s0 :: s1 :: s2 :: srest2))
              = select3 (SimplifyMidis.resultsOf (s0 :: s1 :: s2 :: srest2)) from rfl]
          rw [hstv] at hsel
          exact hsel

/-! ## Helper evaluations on the concrete two-track and three-track inputs -/

theorem twoTrackSong_stats :
    statsOf (nonDrum twoTrackSong) = [⟨0, 36, 1, 40, 0, 1⟩, ⟨1, 80, 6, 90, 5, 1⟩] := by
  norm_num [twoTrackSong, nonDrum, statsOf, noteAccOf, List.enum, List.enumFrom, List.filter,
    List.filterMap_cons, List.foldl_cons, List.foldl_nil, -List.length_eq_zero]

set_option maxHeartbeats 1000000 in
theorem twoTrackSong_analyze :
    SimplifyMidis.analyze_midi twoTrackSong = some [(Role.chords, 1), (Role.bass, 0)] := by
  have h2 : nonDrum twoTrackSong =
      [(0, ⟨36, false, [⟨40, 0, 1⟩]⟩),
        (1, ⟨80, false,
          [⟨90, 0, 1⟩, ⟨90, 1 / 2, 3 / 2⟩, ⟨90, 1, 2⟩, ⟨90, 3 / 2, 5 / 2⟩, ⟨90, 2, 3⟩,
            ⟨90, 5 / 2, 7 / 2⟩]⟩)] := by
    norm_num [twoTrackSong, nonDrum, List.enum, List.enumFrom, List.filter]
  have h3 := h2 ▸ twoTrackSong_stats
  rw [SimplifyMidis.analyze_midi, h2]
  norm_num [h3, SimplifyMidis.analyzeScored, SimplifyMidis.resultsOf, SimplifyMidis.scoreTrack,
    SimplifyMidis.flattenTwo, maxNumNotesOf, maxConcurrencyOf, maxAvgLengthOf,
    stableSort, stableInsert, ltByScore, greedyAssign, List.foldl_cons, List.foldl_nil,
    List.flatMap_cons, List.mem_cons]
  decide

theorem threeTrackSong_stats :
    statsOf (nonDrum threeTrackSong) =
      [⟨0, 33, 1, 30, 0, 1⟩, ⟨1, 0, 2, 165 / 2, 0, 1 / 2⟩, ⟨2, 0, 2, 105 / 2, 1, 2⟩] := by
  norm_num [threeTrackSong, nonDrum, statsOf, noteAccOf, List.enum, List.enumFrom, List.filter,
    List.filterMap_cons, List.foldl_cons, List.foldl_nil, -List.length_eq_zero]

/-- Witness for C8 at the two-track input. -/
theorem c8_no_eligible_tracks_witness :
    ∃ d, SimplifyMidis.analyze_midi twoTrackSong = some d ∧ d ≠ [] :=
  (c8_no_eligible_tracks twoTrackSong).2 (by decide)

/-- Witness for C6 at the two-track input: the returned assignment
`{chords: track 1, bass: track 0}` has distinct roles, distinct tracks, both
from the input, and exactly 2 entries. -/
theorem c6_assignment_invariants_witness :
    ([(Role.chords, 1), (Role.bass, 0)] : List (Role × ℕ)).Pairwise
        (fun a b => a.1 ≠ b.1 ∧ a.2 ≠ b.2)
      ∧ (∀ e ∈ ([(Role.chords, 1), (Role.bass, 0)] : List (Role × ℕ)),
          e.2 ∈ (nonDrum twoTrackSong).map Prod.fst)
      ∧ ((statsOf (nonDrum twoTrackSong)).length = 2 →
          ([(Role.chords, 1), (Role.bass, 0)] : List (Role × ℕ)).length = 2) :=
  c6_assignment_invariants twoTrackSong [(Role.chords, 1), (Role.bass, 0)] twoTrackSong_analyze

/-- Witness for C3 at the three-track input. -/
theorem c3_three_track_selection_witness :
    ∃ b m c : ScoredTrack,
      SimplifyMidis.analyze_midi threeTrackSong
          = some [(Role.bass, b.idx), (Role.melody, m.idx), (Role.chords, c.idx)]
        ∧ IsFirstMax ScoredTrack.bass_score
            (SimplifyMidis.resultsOf (statsOf (nonDrum threeTrackSong))) b
        ∧ IsFirstMax ScoredTrack.melody_score
            ((SimplifyMidis.resultsOf (statsOf (nonDrum threeTrackSong))).filter
              (fun r => r.idx ≠ b.idx)) m
        ∧ IsFirstMax ScoredTrack.chord_score
            (((SimplifyMidis.resultsOf (statsOf (nonDrum threeTrackSong))).filter
              (fun r => r.idx ≠ b.idx)).filter (fun r => r.idx ≠ m.idx)) c :=
  c3_three_track_selection threeTrackSong (by rw [threeTrackSong_stats]; simp)

/-! ## Claim C4 (corrected): chord score weights -/

/-- C4 counterexample: the claim "chordScore = 0.45·normConcurrency +
0.45·normAvgLength + 0.10·normNumNotes for every scored track" is false for
the role classifier of `simplify_midis.py`: on `chordWeightSong` the first
scored track has chord score 0.75 (weights 0.5/0.4/0.1) while the claimed
formula gives 0.71875. -/
theorem c4_chord_score_weights_cex :
    ¬ (∀ (pm : List Instrument) (r : ScoredTrack),
        r ∈ SimplifyMidis.resultsOf (statsOf (nonDrum pm)) →
        r.chord_score =
          0.45 * ((r.concurrency : ℚ) / (maxConcurrencyOf (statsOf (nonDrum pm)) : ℚ))
            + 0.45 * (r.avg_length / maxAvgLengthOf (statsOf (nonDrum pm)))
            + 0.1 * ((r.num_notes : ℚ) / (maxNumNotesOf (statsOf (nonDrum pm)) : ℚ))) := by
  intro hclaim
  have hstats : statsOf (nonDrum chordWeightSong) =
      [⟨0, 0, 2, 60, 1, 3 / 4⟩, ⟨1, 0, 1, 40, 0, 2⟩] := by
    norm_num [chordWeightSong, nonDrum, statsOf, noteAccOf, List.enum, List.enumFrom,
      List.filter, List.filterMap_cons, List.foldl_cons, List.foldl_nil, -List.length_eq_zero]
  have hmem : SimplifyMidis.scoreTrack 2 1 2 ⟨0, 0, 2, 60, 1, 3 / 4⟩
      ∈ SimplifyMidis.resultsOf (statsOf (nonDrum chordWeightSong)) := by
    rw [hstats, SimplifyMidis.resultsOf]
    norm_num [maxNumNotesOf, maxConcurrencyOf, maxAvgLengthOf, List.foldl_cons, List.foldl_nil]
  have hr := hclaim chordWeightSong _ hmem
  rw [hstats] at hr
  norm_num [SimplifyMidis.scoreTrack, maxNumNotesOf, maxConcurrencyOf, maxAvgLengthOf,
    List.foldl_cons, List.foldl_nil] at hr

/-- C4, amended: the chord score is `0.5·normConcurrency + 0.4·normAvgLength
+ 0.1·normNumNotes` in the `simplify_midis.py` classifier, and
`0.45·normConcurrency + 0.45·normAvgLength + 0.1·normNumNotes` in the
`inspect_dataset.py` classifier, for every eligible track either scores. -/
theorem c4_chord_score_weights :
    (∀ (pm : List Instrument) (r : ScoredTrack),
        r ∈ SimplifyMidis.resultsOf (statsOf (nonDrum pm)) →
        r.chord_score =
          0.5 * ((r.concurrency : ℚ) / (maxConcurrencyOf (statsOf (nonDrum pm)) : ℚ))
            + 0.4 * (r.avg_length / maxAvgLengthOf (statsOf (nonDrum pm)))
            + 0.1 * ((r.num_notes : ℚ) / (maxNumNotesOf (statsOf (nonDrum pm)) : ℚ)))
      ∧ (∀ (pm : List Instrument) (r : ScoredTrack),
          r ∈ InspectDataset.resultsOf (statsOf (nonDrum pm)) →
          r.chord_score =
            0.45 * ((r.concurrency : ℚ) / (maxConcurrencyOf (statsOf (nonDrum pm)) : ℚ))
              + 0.45 * (r.avg_length / maxAvgLengthOf (statsOf (nonDrum pm)))
              + 0.1 * ((r.num_notes : ℚ) / (maxNumNotesOf (statsOf (nonDrum pm)) : ℚ))) := by
  constructor
  · intro pm r hr
    rw [SimplifyMidis.resultsOf, List.mem_map] at hr
    obtain ⟨s, -, rfl⟩ := hr
    simp [SimplifyMidis.scoreTrack]
  · intro pm r hr
    rw [InspectDataset.resultsOf, List.mem_map] at hr
    obtain ⟨s, -, rfl⟩ := hr
    simp [InspectDataset.scoreTrack]

/-- Witness for C4 at the first scored track of `chordWeightSong`. -/
theorem c4_chord_score_weights_witness :
    (SimplifyMidis.scoreTrack 2 1 2 ⟨0, 0, 2, 60, 1, 3 / 4⟩).chord_score =
      0.5 * (((SimplifyMidis.scoreTrack 2 1 2 ⟨0, 0, 2, 60, 1, 3 / 4⟩).concurrency : ℚ)
            / (maxConcurrencyOf (statsOf (nonDrum chordWeightSong)) : ℚ))
        + 0.4 * ((SimplifyMidis.scoreTrack 2 1 2 ⟨0, 0, 2, 60, 1, 3 / 4⟩).avg_length
            / maxAvgLengthOf (statsOf (nonDrum chordWeightSong)))
        + 0.1 * (((SimplifyMidis.scoreTrack 2 1 2 ⟨0, 0, 2, 60, 1, 3 / 4⟩).num_notes : ℚ)
            / (maxNumNotesOf (statsOf (nonDrum chordWeightSong)) : ℚ)) := by
  refine c4_chord_score_weights.1 chordWeightSong _ ?_
  have hstats : statsOf (nonDrum chordWeightSong) =
      [⟨0, 0, 2, 60, 1, 3 / 4⟩, ⟨1, 0, 1, 40, 0, 2⟩] := by
    norm_num [chordWeightSong, nonDrum, statsOf, noteAccOf, List.enum, List.enumFrom,
      List.filter, List.filterMap_cons, List.foldl_cons, List.foldl_nil, -List.length_eq_zero]
  rw [hstats, SimplifyMidis.resultsOf]
  norm_num [maxNumNotesOf, maxConcurrencyOf, maxAvgLengthOf, List.foldl_cons, List.foldl_nil]

/-! ## Helper lemmas: outcome of the 2-track greedy under dominance -/

theorem ltByScore_pairwise (l : List (ℕ × Role × ℚ)) :
    (stableSort ltByScore l).Pairwise (fun x y => ltByScore y x = false) := by
  refine stableSort_pairwise ltByScore ?_ ?_ l
  · intro x y h
    simp only [ltByScore, decide_eq_true_eq] at h
    simp only [ltByScore, decide_eq_false_iff_not]
    exact asymm h
  · intro x y z h1 h2
    simp only [ltByScore, decide_eq_false_iff_not, not_lt] at h1 h2 ⊢
    exact h2.trans h1

/-- When track A dominates on bass and track B's chord score dominates B's
other scores (with A's bass score also above B's bass and melody scores and
A's melody and chord scores), the 2-track greedy assigns bass to A and chords
to B, in one of the two insertion orders. -/
theorem greedy_two_outcome (RA RB : ScoredTrack) (hne : RA.idx ≠ RB.idx)
    (h1 : RB.melody_score < RB.chord_score)
    (h2 : RA.melody_score < RA.bass_score)
    (h3 : RA.chord_score < RA.bass_score)
    (h4 : RB.bass_score < RA.bass_score) :
    SimplifyMidis.analyzeScored [RA, RB]
        = some [(Role.bass, RA.idx), (Role.chords, RB.idx)]
      ∨ SimplifyMidis.analyzeScored [RA, RB]
          = some [(Role.chords, RB.idx), (Role.bass, RA.idx)] := by
  have hF := flattenTwo_pair RA RB
  have hFnodup : (SimplifyMidis.flattenTwo [RA, RB]).Nodup := by
    rw [hF]
    simp [List.nodup_cons, List.mem_cons, Prod.ext_iff, hne, Ne.symm hne]
  have hAb : (RA.idx, Role.bass, RA.bass_score) ∈ SimplifyMidis.flattenTwo [RA, RB] := by
    rw [hF]; simp
  have hBc : (RB.idx, Role.chords, RB.chord_score) ∈ SimplifyMidis.flattenTwo [RA, RB] := by
    rw [hF]; simp
  rcases hS : stableSort ltByScore (SimplifyMidis.flattenTwo [RA, RB]) with _ | ⟨e1, T⟩
  · exfalso
    have := stableSort_length ltByScore (SimplifyMidis.flattenTwo [RA, RB])
    rw [hS, hF] at this
    simp at this
  · have hET : (e1 :: T).Perm (SimplifyMidis.flattenTwo [RA, RB]) := by
      rw [← hS]
      exact stableSort_perm _ _
    have hPW : (e1 :: T).Pairwise (fun x y => ltByScore y x = false) := by
      rw [← hS]
      exact ltByScore_pairwise _
    have hndS : (e1 :: T).Nodup := hET.symm.nodup hFnodup
    have he1nT : e1 ∉ T := (List.nodup_cons.mp hndS).1
    have hndT : T.Nodup := (List.nodup_cons.mp hndS).2
    have hTpw : T.Pairwise (fun x y => ltByScore y x = false) := (List.pairwise_cons.mp hPW).2
    have hmax : ∀ f ∈ SimplifyMidis.flattenTwo [RA, RB], f.2.2 ≤ e1.2.2 := by
      intro f hf
      rcases List.mem_cons.mp (hET.mem_iff.mpr hf) with rfl | hfT
      · exact le_refl _
      · have hrel := (List.pairwise_cons.mp hPW).1 f hfT
        simp only [ltByScore, decide_eq_false_iff_not, not_lt] at hrel
        exact hrel
    have he1F : e1 ∈ SimplifyMidis.flattenTwo [RA, RB] := hET.subset (by simp)
    have he1cases : e1 = (RA.idx, Role.bass, RA.bass_score)
        ∨ e1 = (RB.idx, Role.chords, RB.chord_score) := by
      rw [hF] at he1F
      simp only [List.mem_cons, List.not_mem_nil, or_false] at he1F
      rcases he1F with h | h | h | h | h | h
      · exact Or.inl h
      · exfalso
        have := hmax _ hAb
        rw [h] at this
        simp only at this
        linarith
      · exfalso
        have := hmax _ hAb
        rw [h] at this
        simp only at this
        linarith
      · exfalso
        have := hmax _ hAb
        rw [h] at this
        simp only at this
        linarith
      · exfalso
        have := hmax _ hBc
        rw [h] at this
        simp only at this
        linarith
      · exact Or.inr h
    rcases he1cases with he1 | he1
    · left
      subst he1
      have hwT : (RB.idx, Role.chords, RB.chord_score) ∈ T := by
        rcases List.mem_cons.mp (hET.mem_iff.mpr hBc) with h | h
        · exfalso
          simp [Prod.ext_iff] at h
        · exact h
      obtain ⟨T1, T2, hT⟩ := List.append_of_mem hwT
      have hwnT1 : (RB.idx, Role.chords, RB.chord_score) ∉ T1 := by
        have hnd := hndT
        rw [hT] at hnd
        intro hmem
        exact (List.disjoint_of_nodup_append hnd) hmem (by simp)
      have hT1w : ∀ f ∈ T1, RB.chord_score ≤ f.2.2 := by
        rw [hT] at hTpw
        intro f hf
        have hrel := (List.pairwise_append.mp hTpw).2.2 f hf _ (List.mem_cons_self _ _)
        simp only [ltByScore, decide_eq_false_iff_not, not_lt] at hrel
        exact hrel
      have hT1incompat : ∀ f ∈ T1, f.1 = RA.idx ∨ f.2.1 = Role.bass := by
        intro f hf
        have hfT : f ∈ T := hT ▸ List.mem_append_left _ hf
        have hfF : f ∈ SimplifyMidis.flattenTwo [RA, RB] :=
          hET.subset (List.mem_cons_of_mem _ hfT)
        have hfne1 : f ≠ (RA.idx, Role.bass, RA.bass_score) := fun h => he1nT (h ▸ hfT)
        have hfnw : f ≠ (RB.idx, Role.chords, RB.chord_score) := fun h => hwnT1 (h ▸ hf)
        rw [hF] at hfF
        simp only [List.mem_cons, List.not_mem_nil, or_false] at hfF
        rcases hfF with h | h | h | h | h | h
        · exact absurd h hfne1
        · exact Or.inl (by rw [h])
        · exact Or.inl (by rw [h])
        · exact Or.inr (by rw [h])
        · exfalso
          have := hT1w f hf
          rw [h] at this
          simp only at this
          linarith
        · exact absurd h hfnw
      show some (greedyAssign (stableSort ltByScore (SimplifyMidis.flattenTwo [RA, RB])) [] [] [])
          = some [(Role.bass, RA.idx), (Role.chords, RB.idx)]
      rw [hS, greedyAssign_first, hT,
        greedyAssign_skip_prefix RA.idx Role.bass T1 _ T2 hT1incompat
          (by simpa using hne.symm) (by simp)]
    · right
      subst he1
      have hwT : (RA.idx, Role.bass, RA.bass_score) ∈ T := by
        rcases List.mem_cons.mp (hET.mem_iff.mpr hAb) with h | h
        · exfalso
          simp [Prod.ext_iff] at h
        · exact h
      obtain ⟨T1, T2, hT⟩ := List.append_of_mem hwT
      have hwnT1 : (RA.idx, Role.bass, RA.bass_score) ∉ T1 := by
        have hnd := hndT
        rw [hT] at hnd
        intro hmem
        exact (List.disjoint_of_nodup_append hnd) hmem (by simp)
      have hT1w : ∀ f ∈ T1, RA.bass_score ≤ f.2.2 := by
        rw [hT] at hTpw
        intro f hf
        have hrel := (List.pairwise_append.mp hTpw).2.2 f hf _ (List.mem_cons_self _ _)
        simp only [ltByScore, decide_eq_false_iff_not, not_lt] at hrel
        exact hrel
      have hT1incompat : ∀ f ∈ T1, f.1 = RB.idx ∨ f.2.1 = Role.chords := by
        intro f hf
        have hfT : f ∈ T := hT ▸ List.mem_append_left _ hf
        have hfF : f ∈ SimplifyMidis.flattenTwo [RA, RB] :=
          hET.subset (List.mem_cons_of_mem _ hfT)
        have hfne1 : f ≠ (RB.idx, Role.chords, RB.chord_score) := fun h => he1nT (h ▸ hfT)
        have hfnw : f ≠ (RA.idx, Role.bass, RA.bass_score) := fun h => hwnT1 (h ▸ hf)
        rw [hF] at hfF
        simp only [List.mem_cons, List.not_mem_nil, or_false] at hfF
        rcases hfF with h | h | h | h | h | h
        · exact absurd h hfnw
        · exfalso
          have := hT1w f hf
          rw [h] at this
          simp only at this
          linarith
        · exact Or.inr (by rw [h])
        · exact Or.inl (by rw [h])
        · exact Or.inl (by rw [h])
        · exact absurd h hfne1
      show some (greedyAssign (stableSort ltByScore (SimplifyMidis.flattenTwo [RA, RB])) [] [] [])
          = some [(Role.chords, RB.idx), (Role.bass, RA.idx)]
      rw [hS, greedyAssign_first, hT,
        greedyAssign_skip_prefix RB.idx Role.chords T1 _ T2 hT1incompat
          (by simpa using hne) (by simp)]

/-! ## Claim C9 (corrected): the spec's 2-track example -/

set_option maxHeartbeats 1000000 in
/-- C9 counterexample: on the spec's example structure (track A: program 36,
average pitch 40, concurrency 0; track B: program 80, average pitch 90,
concurrency 5) the 2-track greedy classifies B as CHORDS, not melody: B's
chord score (≥ 0.5, since its concurrency is maximal) always exceeds its
melody score (≤ 0.45·(90/127) + 0.1 < 0.42). -/
theorem c9_two_track_roles_cex :
    statsOf (nonDrum twoTrackSong) = [⟨0, 36, 1, 40, 0, 1⟩, ⟨1, 80, 6, 90, 5, 1⟩]
      ∧ SimplifyMidis.analyze_midi twoTrackSong = some [(Role.chords, 1), (Role.bass, 0)]
      ∧ List.lookup Role.melody [((Role.chords : Role), (1 : ℕ)), (Role.bass, 0)] = none :=
  ⟨twoTrackSong_stats, twoTrackSong_analyze, by decide⟩

/-- C9, amended: for every MIDI structure with exactly two eligible non-drum
tracks A (program 36, average pitch 40, concurrency 0) and B (program 80,
average pitch 90, concurrency 5), both with nonnegative average note length,
the 2-track greedy rule classifies A as bass and B as chords, and assigns no
melody. -/
theorem c9_two_track_roles (pm : List Instrument) (iA iB : ℕ) (A B : Instrument)
    (sA sB : RawStats)
    (hnd : nonDrum pm = [(iA, A), (iB, B)])
    (hst : statsOf (nonDrum pm) = [sA, sB])
    (hA : sA.program = 36 ∧ sA.avg_pitch = 40 ∧ sA.concurrency = 0 ∧ 0 ≤ sA.avg_length)
    (hB : sB.program = 80 ∧ sB.avg_pitch = 90 ∧ sB.concurrency = 5 ∧ 0 ≤ sB.avg_length) :
    ∃ d, SimplifyMidis.analyze_midi pm = some d
      ∧ List.lookup Role.bass d = some sA.idx
      ∧ List.lookup Role.chords d = some sB.idx
      ∧ List.lookup Role.melody d = none := by
  obtain ⟨hApr, hApi, hAc, hAl⟩ := hA
  obtain ⟨hBpr, hBpi, hBc, hBl⟩ := hB
  have ha : SimplifyMidis.analyze_midi pm
      = SimplifyMidis.analyzeScored (SimplifyMidis.resultsOf [sA, sB]) := by
    rw [SimplifyMidis.analyze_midi, hnd]
    have hst2 : statsOf [(iA, A), (iB, B)] = [sA, sB] := hnd ▸ hst
    simp only [hst2]
  have hsAmem : sA ∈ statsOf (nonDrum pm) := by rw [hst]; simp
  have hsBmem : sB ∈ statsOf (nonDrum pm) := by rw [hst]; simp
  have hnA : 0 < sA.num_notes := statsOf_num_notes_pos _ sA hsAmem
  have hnB : 0 < sB.num_notes := statsOf_num_notes_pos _ sB hsBmem
  have hidx : sA.idx ≠ sB.idx := by
    have hpw := statsOf_pairwise_idx (nonDrum pm) (nonDrum_pairwise_fst pm)
    rw [hst] at hpw
    exact Nat.ne_of_lt ((List.pairwise_cons.mp hpw).1 sB (by simp))
  have hmc : maxConcurrencyOf [sA, sB] = 5 := by
    simp [maxConcurrencyOf, hAc, hBc]
  have hmn : maxNumNotesOf [sA, sB] = max sA.num_notes sB.num_notes := by
    simp [maxNumNotesOf]
  have hmnpos : (0 : ℚ) < (maxNumNotesOf [sA, sB] : ℚ) := by
    rw [hmn]
    exact_mod_cast lt_of_lt_of_le hnA (le_max_left _ _)
  have hml : maxAvgLengthOf [sA, sB]
      = if max sA.avg_length sB.avg_length = 0 then 1 else max sA.avg_length sB.avg_length := by
    simp [maxAvgLengthOf]
  have hmlpos : (0 : ℚ) < maxAvgLengthOf [sA, sB] := by
    rw [hml]
    split
    · norm_num
    · rename_i hne0
      exact lt_of_le_of_ne (le_trans hAl (le_max_left _ _)) (Ne.symm hne0)
  have hnormA1 : 0 < (sA.num_notes : ℚ) / (maxNumNotesOf [sA, sB] : ℚ) :=
    div_pos (by exact_mod_cast hnA) hmnpos
  have hnormA2 : (sA.num_notes : ℚ) / (maxNumNotesOf [sA, sB] : ℚ) ≤ 1 := by
    rw [div_le_one hmnpos, hmn]
    exact_mod_cast le_max_left _ _
  have hnormB1 : 0 < (sB.num_notes : ℚ) / (maxNumNotesOf [sA, sB] : ℚ) :=
    div_pos (by exact_mod_cast hnB) hmnpos
  have hnormB2 : (sB.num_notes : ℚ) / (maxNumNotesOf [sA, sB] : ℚ) ≤ 1 := by
    rw [div_le_one hmnpos, hmn]
    exact_mod_cast le_max_right _ _
  have hlascend : sA.avg_length ≤ maxAvgLengthOf [sA, sB] := by
    rw [hml]
    split
    · rename_i h0
      calc sA.avg_length ≤ max sA.avg_length sB.avg_length := le_max_left _ _
        _ = 0 := h0
        _ ≤ 1 := by norm_num
    · exact le_max_left _ _
  have hlbscend : sB.avg_length ≤ maxAvgLengthOf [sA, sB] := by
    rw [hml]
    split
    · rename_i h0
      calc sB.avg_length ≤ max sA.avg_length sB.avg_length := le_max_right _ _
        _ = 0 := h0
        _ ≤ 1 := by norm_num
    · exact le_max_right _ _
  have hlA1 : 0 ≤ sA.avg_length / maxAvgLengthOf [sA, sB] := div_nonneg hAl hmlpos.le
  have hlA2 : sA.avg_length / maxAvgLengthOf [sA, sB] ≤ 1 := by
    rw [div_le_one hmlpos]
    exact hlascend
  have hlB1 : 0 ≤ sB.avg_length / maxAvgLengthOf [sA, sB] := div_nonneg hBl hmlpos.le
  have hlB2 : sB.avg_length / maxAvgLengthOf [sA, sB] ≤ 1 := by
    rw [div_le_one hmlpos]
    exact hlbscend
  have hres : SimplifyMidis.resultsOf [sA, sB]
      = [SimplifyMidis.scoreTrack (maxNumNotesOf [sA, sB]) 5 (maxAvgLengthOf [sA, sB]) sA,
          SimplifyMidis.scoreTrack (maxNumNotesOf [sA, sB]) 5 (maxAvgLengthOf [sA, sB]) sB] := by
    rw [SimplifyMidis.resultsOf, hmc]
    rfl
  have hbA : (SimplifyMidis.scoreTrack (maxNumNotesOf [sA, sB]) 5 (maxAvgLengthOf [sA, sB])
      sA).bass_score = 107 / 127 := by
    simp only [SimplifyMidis.scoreTrack, hApr, hApi]
    norm_num
  have hmA : (SimplifyMidis.scoreTrack (maxNumNotesOf [sA, sB]) 5 (maxAvgLengthOf [sA, sB])
      sA).melody_score
      = 0.45 * (40 / 127) + 0.45
          + 0.1 * ((sA.num_notes : ℚ) / (maxNumNotesOf [sA, sB] : ℚ)) := by
    simp only [SimplifyMidis.scoreTrack, hApi, hAc]
    norm_num
  have hcA : (SimplifyMidis.scoreTrack (maxNumNotesOf [sA, sB]) 5 (maxAvgLengthOf [sA, sB])
      sA).chord_score
      = 0.4 * (sA.avg_length / maxAvgLengthOf [sA, sB])
          + 0.1 * ((sA.num_notes : ℚ) / (maxNumNotesOf [sA, sB] : ℚ)) := by
    simp only [SimplifyMidis.scoreTrack, hAc]
    norm_num
  have hbB : (SimplifyMidis.scoreTrack (maxNumNotesOf [sA, sB]) 5 (maxAvgLengthOf [sA, sB])
      sB).bass_score = 37 / 254 := by
    simp only [SimplifyMidis.scoreTrack, hBpr, hBpi]
    norm_num
  have hmB : (SimplifyMidis.scoreTrack (maxNumNotesOf [sA, sB]) 5 (maxAvgLengthOf [sA, sB])
      sB).melody_score
      = 0.45 * (90 / 127)
          + 0.1 * ((sB.num_notes : ℚ) / (maxNumNotesOf [sA, sB] : ℚ)) := by
    simp only [SimplifyMidis.scoreTrack, hBpi, hBc]
    norm_num
  have hcB : (SimplifyMidis.scoreTrack (maxNumNotesOf [sA, sB]) 5 (maxAvgLengthOf [sA, sB])
      sB).chord_score
      = 0.5 + 0.4 * (sB.avg_length / maxAvgLengthOf [sA, sB])
          + 0.1 * ((sB.num_notes : ℚ) / (maxNumNotesOf [sA, sB] : ℚ)) := by
    simp only [SimplifyMidis.scoreTrack, hBc]
    norm_num
  have hout := greedy_two_outcome
    (SimplifyMidis.scoreTrack (maxNumNotesOf [sA, sB]) 5 (maxAvgLengthOf [sA, sB]) sA)
    (SimplifyMidis.scoreTrack (maxNumNotesOf [sA, sB]) 5 (maxAvgLengthOf [sA, sB]) sB)
    hidx
    (by rw [hmB, hcB]; linarith)
    (by rw [hmA, hbA]; linarith)
    (by rw [hcA, hbA]; linarith)
    (by rw [hbB, hbA]; norm_num)
  rcases hout with h | h
  · exact ⟨_, by rw [ha, hres]; exact h, by rfl, by rfl, by rfl⟩
  · exact ⟨_, by rw [ha, hres]; exact h, by rfl, by rfl, by rfl⟩

set_option maxHeartbeats 1000000 in
/-- Witness for the amended C9 at the concrete two-track input. -/
theorem c9_two_track_roles_witness :
    ∃ d, SimplifyMidis.analyze_midi twoTrackSong = some d
      ∧ List.lookup Role.bass d = some (0 : ℕ)
      ∧ List.lookup Role.chords d = some (1 : ℕ)
      ∧ List.lookup Role.melody d = none :=
  c9_two_track_roles twoTrackSong 0 1 ⟨36, false, [⟨40, 0, 1⟩]⟩
    ⟨80, false,
      [⟨90, 0, 1⟩, ⟨90, 1 / 2, 3 / 2⟩, ⟨90, 1, 2⟩, ⟨90, 3 / 2, 5 / 2⟩, ⟨90, 2, 3⟩,
        ⟨90, 5 / 2, 7 / 2⟩]⟩
    ⟨0, 36, 1, 40, 0, 1⟩ ⟨1, 80, 6, 90, 5, 1⟩
    (by norm_num [twoTrackSong, nonDrum, List.enum, List.enumFrom, List.filter])
    twoTrackSong_stats
    (by norm_num) (by norm_num)

/-- C8 counterexample: a file whose single non-drum track has zero notes has
an empty eligible-track list, yet `analyze_midi` does not fail — it returns
`{melody: that track}` — so "fails iff no eligible tracks" is false as
stated. -/
theorem c8_no_eligible_tracks_cex :
    eligibleOf emptyTrackSong = []
      ∧ SimplifyMidis.analyze_midi emptyTrackSong = some [(Role.melody, 0)]
      ∧ SimplifyMidis.analyze_midi emptyTrackSong ≠ none := by
  refine ⟨by decide, by decide, by decide⟩
